import Mathlib

/-! lockfreepool: a shallow embedding of `pool.go`

The pool of `pool.go` is embedded as a record `Pool α` over an abstract type `α` of
element values, and every method of `*Pool` as a function on that record.

Conventions of the embedding
* `uint64` values are natural numbers, reduced modulo `2 ^ 64` where the Go code can wrap.
* A slot of `list []*Element` is an `Option α`: `none` is the nil pointer, `some e` a pointer
  to the element value `e`.
* The factory `newFunc func() Element` may be stateful, so it is a stream `Nat → α`: the
  `k`-th call made through the pool returns `newFunc k`, and the ghost field `made` counts
  the calls.  `Clean()` calls are recorded in the ghost field `cleaned`.
* A channel is its identity together with its closed bit; the ghost field `chans` counts
  the channels allocated so far, so every `make(chan struct{})` yields a new identity.
* Every method call runs to completion without interference from another goroutine (the
  sequential behaviour of the code).  A `select` with several ready cases is resolved by a
  scheduler stream `sched`, and the retry loops of `Pop` and `Push` take fuel.
* Go runtime panics (division by zero, index out of range, close of a closed channel,
  negative `WaitGroup` counter, `make` with a length that does not fit an `int`) are the
  outcome `panicked`.  An `int` has 64 bits.  Memory is unbounded: `make` with a length
  below `2 ^ 63` never fails.
* A caller is a sequence of calls, each of which returned before the next began
  (`popN`, `pushAll`, `runCalls`); there `wg.Wait()` on a positive counter is the outcome
  `spinning`, as nothing else runs that could lower the counter.
* `Close()` is also run statement by statement (`CloseStmt`, `closeBody`), with whole
  calls of other goroutines between its statements (`Sys`, `runEvents`).
-/

namespace Lockfreepool

/-- The modulus of `uint64` arithmetic. -/
def u64 : Nat := 2 ^ 64

/-- The result of running a method: it returned, it hit a Go runtime panic, or its retry
loop was still running when the fuel ran out. -/
inductive Outcome (β : Type) where
  | done : β → Outcome β
  | panicked : Outcome β
  | spinning : Outcome β

/-- The error values of the package (`var ErrOverRange error`). -/
inductive PoolError where
  | ErrOverRange : PoolError
deriving DecidableEq, Repr

/-- A Go channel of type `chan struct{}` that is only ever closed: identity and closed bit. -/
structure Chan where
  id : Nat
  closed : Bool
deriving DecidableEq, Repr

/-- The `Element` interface: `Check()` reports whether the element is fine.  `Clean()` has
no result; its calls are recorded in `Pool.cleaned`. -/
class Element (α : Type) where
  Check : α → Bool

/-- The `Pool` struct, with the ghost fields `made`, `cleaned` and `chans`. -/
structure Pool (α : Type) where
  /-- `length uint64`: the capacity. -/
  length : Nat
  /-- `count uint64`: the acquire cursor. -/
  count : Nat
  /-- `list []*Element`: the slot array. -/
  list : List (Option α)
  /-- Whether `ctx.Done()` is closed. -/
  cancelled : Bool
  /-- The counter of `wg sync.WaitGroup`. -/
  wg : Nat
  /-- The channel `*pause`. -/
  pause : Chan
  /-- The channel `*subtract`. -/
  subtract : Chan
  /-- The channel `Done`. -/
  Done : Chan
  /-- The factory: `newFunc k` is what the `k`-th call returns. -/
  newFunc : Nat → α
  /-- Ghost: the number of factory calls made so far. -/
  made : Nat
  /-- Ghost: the elements on which `Clean()` was called, oldest first. -/
  cleaned : List α
  /-- Ghost: the number of channels allocated so far. -/
  chans : Nat

variable {α : Type}

/-- The builtin `copy(dst, src)` on slices: the first `min (len dst) (len src)` entries of
`dst` are overwritten by those of `src`. -/
def copy {β : Type} (dst src : List β) : List β :=
  src.take dst.length ++ dst.drop src.length

/-- The loop `for i := p.length; i < bound; i++ { e := p.newFunc(); newList[i] = &e }` of
`ExtendN` and `Extend2`, with `iters` iterations left, the loop variable at `i` and `made`
factory calls done.  Returns the array and the number of factory calls. -/
def fillNew (newFunc : Nat → α) : Nat → Nat → Nat → List (Option α) → List (Option α) × Nat
  | 0, _, made, l => (l, made)
  | iters + 1, i, made, l => fillNew newFunc iters (i + 1) (made + 1) (l.set i (some (newFunc made)))

/-- The loop `for i, elem := range newList { if elem == nil { newElem := p.newFunc();
newList[i] = &newElem } }` of `SubtractN` and `SubtractToHalf`.  Returns the array and the
number of factory calls. -/
def refill (newFunc : Nat → α) : Nat → List (Option α) → List (Option α) × Nat
  | made, [] => ([], made)
  | made, some e :: rest => ((some e) :: (refill newFunc made rest).1, (refill newFunc made rest).2)
  | made, none :: rest =>
      ((some (newFunc made)) :: (refill newFunc (made + 1) rest).1, (refill newFunc (made + 1) rest).2)

/-- The loop `for i := 0; i < int(length); i++ { e := newFunc(); list[i] = &e }` of
`NewPool`; `int(length)` is negative for `length ≥ 2 ^ 63`, and then the body never runs
(`make` has refused such a length before the loop is reached, see `NewPool`). -/
def initialFill (newFunc : Nat → α) (length : Nat) : List (Option α) × Nat :=
  fillNew newFunc (if length < 2 ^ 63 then length else 0) 0 0 (List.replicate length none)

/-- Whether `make([]*Element, n)` panics for the `uint64` length `n`: the runtime refuses
a length that does not fit an `int` (`makeslice: len out of range`), that is `2 ^ 63` or
more. -/
def makePanics (n : Nat) : Bool := decide (2 ^ 63 ≤ n)

/-- The pool that `NewPool(length, ctx, newFunc)` returns once `make` has returned the slot
array; `ctxDone` tells whether the parent context is already cancelled. -/
def freshPool (length : Nat) (ctxDone : Bool) (newFunc : Nat → α) : Pool α :=
  { length := length
    count := 0
    list := (initialFill newFunc length).1
    cancelled := ctxDone
    wg := 0
    pause := { id := 0, closed := false }
    subtract := { id := 1, closed := false }
    Done := { id := 2, closed := false }
    newFunc := newFunc
    made := (initialFill newFunc length).2
    cleaned := []
    chans := 3 }

/-- `NewPool(length, ctx, newFunc)`: `list := make([]*Element, length)` comes before
everything else. -/
def NewPool (length : Nat) (ctxDone : Bool) (newFunc : Nat → α) : Outcome (Pool α) :=
  if makePanics length then .panicked else .done (freshPool length ctxDone newFunc)

/-- `GetLength()`. -/
def GetLength (p : Pool α) : Nat := p.length

/-- `p.wg.Done()`: panics when the counter would become negative. -/
def wgDone (p : Pool α) : Outcome (Pool α) :=
  if p.wg = 0 then .panicked else .done { p with wg := p.wg - 1 }

/-- The cases of the `select` statement of `Pop` and `Push`. -/
inductive SelectCase where
  | ctxDone : SelectCase
  | pause : SelectCase
  | subtract : SelectCase
  | default : SelectCase
deriving DecidableEq, Repr

/-- The communication cases of the `select` that can proceed, in source order. -/
def readyCases (p : Pool α) : List SelectCase :=
  (if p.cancelled then [SelectCase.ctxDone] else []) ++
  (if p.pause.closed then [SelectCase.pause] else []) ++
  (if p.subtract.closed then [SelectCase.subtract] else [])

/-- Go's `select`: `default` when no case can proceed, otherwise one of the ready cases,
chosen by the scheduler value `pick`. -/
def goSelect (p : Pool α) (pick : Nat) : SelectCase :=
  (readyCases p).getD (pick % (readyCases p).length) SelectCase.default

/-- The `for { select { ... } }` loop of `Pop`.  `count` is the local variable `count`,
`index` the slot that `pointer` addresses, `iter` the number of iterations done. -/
def popLoop (sched : Nat → Nat) (count : Nat) :
    Nat → Nat → Nat → Pool α → Outcome (Pool α × Option α)
  | 0, _, _, _ => .spinning
  | fuel + 1, iter, index, p =>
    match goSelect p (sched iter) with
    | .ctxDone =>
      match wgDone p with
      | .done q => .done (q, none)
      | .panicked => .panicked
      | .spinning => .spinning
    | .pause => popLoop sched count fuel (iter + 1) index p
    | .subtract =>
      if p.length = 0 then .panicked
      else if count % p.length < p.list.length then
        popLoop sched count fuel (iter + 1) (count % p.length) p
      else .panicked
    | .default =>
      match p.list.getD index none with
      | none => popLoop sched count fuel (iter + 1) index p
      | some e => .done ({ p with list := p.list.set index none }, some e)

/-- `Pop()`: the returned `Option α` is `none` for Go's `nil`. -/
def Pop (sched : Nat → Nat) (fuel : Nat) (p : Pool α) : Outcome (Pool α × Option α) :=
  if p.length = 0 then .panicked
  else if (p.count + 1) % u64 % p.length < p.list.length then
    popLoop sched ((p.count + 1) % u64) fuel 0 ((p.count + 1) % u64 % p.length)
      { p with wg := p.wg + 1, count := (p.count + 1) % u64 }
  else .panicked

/-- The `for { select { ... } }` loop of `Push`.  `elem` is the element to store, `count`
the local scan counter, `iter` the number of iterations done. -/
def pushLoop (sched : Nat → Nat) (elem : α) : Nat → Nat → Nat → Pool α → Outcome (Pool α)
  | 0, _, _, _ => .spinning
  | fuel + 1, iter, count, p =>
    match goSelect p (sched iter) with
    | .ctxDone => wgDone { p with cleaned := p.cleaned ++ [elem] }
    | .pause => pushLoop sched elem fuel (iter + 1) count p
    | .subtract => wgDone { p with cleaned := p.cleaned ++ [elem] }
    | .default =>
      if p.length = 0 then .panicked
      else if count % p.length < p.list.length then
        match p.list.getD (count % p.length) none with
        | none => wgDone { p with list := p.list.set (count % p.length) (some elem) }
        | some _ => pushLoop sched elem fuel (iter + 1) ((count + 1) % u64) p
      else .panicked

/-- `Push(elem)`, for a non-nil `elem`. -/
def Push [Element α] (sched : Nat → Nat) (fuel : Nat) (p : Pool α) (elem : α) :
    Outcome (Pool α) :=
  if Element.Check elem then pushLoop sched elem fuel 0 0 p
  else
    pushLoop sched (p.newFunc p.made) fuel 0 0
      { p with cleaned := p.cleaned ++ [elem], made := p.made + 1 }

/-- `ExtendN(n)`: `make([]*Element, p.length+n)` comes first, then `close(*p.pause)`,
which panics on a closed channel. -/
def ExtendN (p : Pool α) (n : Nat) : Outcome (Pool α) :=
  if makePanics ((p.length + n) % u64) then .panicked
  else if p.pause.closed then .panicked
  else
    .done { p with
      list := (fillNew p.newFunc ((p.length + n) % u64 - p.length) p.length p.made
        (copy (List.replicate ((p.length + n) % u64) none) p.list)).1
      made := (fillNew p.newFunc ((p.length + n) % u64 - p.length) p.length p.made
        (copy (List.replicate ((p.length + n) % u64) none) p.list)).2
      length := (p.length + n) % u64
      pause := { id := p.chans, closed := false }
      chans := p.chans + 1 }

/-- `Extend2()`: `make([]*Element, p.length*2)` comes first, then `close(*p.pause)`. -/
def Extend2 (p : Pool α) : Outcome (Pool α) :=
  if makePanics ((p.length * 2) % u64) then .panicked
  else if p.pause.closed then .panicked
  else
    .done { p with
      list := (fillNew p.newFunc ((p.length * 2) % u64 - p.length) p.length p.made
        (copy (List.replicate ((p.length * 2) % u64) none) p.list)).1
      made := (fillNew p.newFunc ((p.length * 2) % u64 - p.length) p.length p.made
        (copy (List.replicate ((p.length * 2) % u64) none) p.list)).2
      length := (p.length * 2) % u64
      pause := { id := p.chans, closed := false }
      chans := p.chans + 1 }

/-- `SubtractN(n)`: the second component is the returned `error` (`none` for `nil`).
`close(*p.subtract)` panics on a closed channel, and the slice expression
`p.list[:p.length-n]` panics when the bound exceeds the slice (its capacity is taken to be
its length). -/
def SubtractN (p : Pool α) (n : Nat) : Outcome (Pool α × Option PoolError) :=
  if n ≥ p.length then .done (p, some PoolError.ErrOverRange)
  else if p.subtract.closed then .panicked
  else if p.list.length < p.length - n then .panicked
  else
    .done ({ p with
      list := (refill p.newFunc p.made (p.list.take (p.length - n))).1
      made := (refill p.newFunc p.made (p.list.take (p.length - n))).2
      length := p.length - n
      subtract := { id := p.chans, closed := false }
      chans := p.chans + 1 }, none)

/-- `SubtractToHalf()`, with `newLength := p.length / 2`; the panics are those of
`SubtractN`. -/
def SubtractToHalf (p : Pool α) : Outcome (Pool α) :=
  if p.subtract.closed then .panicked
  else if p.list.length < p.length / 2 then .panicked
  else
    .done { p with
      list := (refill p.newFunc p.made (p.list.take (p.length / 2))).1
      made := (refill p.newFunc p.made (p.list.take (p.length / 2))).2
      length := p.length / 2
      subtract := { id := p.chans, closed := false }
      chans := p.chans + 1 }

/-- The statements of the body of `Close()`, in the order of the source: `p.cancel()`,
`p.wg.Wait()`, `close(p.Done)`.  (`fmt.Println` does not touch the pool.) -/
inductive CloseStmt where
  | cancel : CloseStmt
  | wait : CloseStmt
  | closeDone : CloseStmt
deriving DecidableEq, Repr

/-- One statement of `Close()`.  `Wait` returns only when the counter is zero; with a
positive counter the goroutine stays blocked (outcome `spinning`).  `close` panics on a
closed channel. -/
def CloseStmt.run (p : Pool α) : CloseStmt → Outcome (Pool α)
  | .cancel => .done { p with cancelled := true }
  | .wait => if p.wg ≠ 0 then .spinning else .done p
  | .closeDone =>
    if p.Done.closed then .panicked
    else .done { p with Done := { id := p.Done.id, closed := true } }

/-- The body of `Close()`. -/
def closeBody : List CloseStmt := [.cancel, .wait, .closeDone]

/-- Statements run one after the other, by a goroutine that runs alone. -/
def runStmts : Pool α → List CloseStmt → Outcome (Pool α)
  | p, [] => .done p
  | p, s :: rest =>
    match s.run p with
    | .done q => runStmts q rest
    | .panicked => .panicked
    | .spinning => .spinning

/-- `Close()`, run alone. -/
def Close (p : Pool α) : Outcome (Pool α) := runStmts p closeBody

/-- The caller `for j := 0; j < n; j++ { results = append(results, p.Pop()) }`: `n`
successive `Pop` calls, with what they returned. -/
def popN (sched : Nat → Nat) (fuel : Nat) : Nat → Pool α → Outcome (Pool α × List (Option α))
  | 0, p => .done (p, [])
  | n + 1, p =>
    match Pop sched fuel p with
    | .done (q, r) =>
      match popN sched fuel n q with
      | .done (q2, rs) => .done (q2, r :: rs)
      | .panicked => .panicked
      | .spinning => .spinning
    | .panicked => .panicked
    | .spinning => .spinning

/-- The caller `for _, e := range elems { p.Push(&e) }`: successive `Push` calls. -/
def pushAll [Element α] (sched : Nat → Nat) (fuel : Nat) : List α → Pool α → Outcome (Pool α)
  | [], p => .done p
  | e :: rest, p =>
    match Push sched fuel p e with
    | .done q => pushAll sched fuel rest q
    | .panicked => .panicked
    | .spinning => .spinning

/-- A call of one of the methods of `*Pool`, with the scheduler and the fuel of the calls
that loop. -/
inductive Call (α : Type) where
  | pop : (Nat → Nat) → Nat → Call α
  | push : (Nat → Nat) → Nat → α → Call α
  | extendN : Nat → Call α
  | extend2 : Call α
  | subtractN : Nat → Call α
  | subtractToHalf : Call α
  | close : Call α

/-- The pool after one call that returned. -/
def Call.exec [Element α] (p : Pool α) : Call α → Outcome (Pool α)
  | .pop sched fuel =>
    match Pop sched fuel p with
    | .done (q, _) => .done q
    | .panicked => .panicked
    | .spinning => .spinning
  | .push sched fuel e => Push sched fuel p e
  | .extendN n => ExtendN p n
  | .extend2 => Extend2 p
  | .subtractN n =>
    match SubtractN p n with
    | .done (q, _) => .done q
    | .panicked => .panicked
    | .spinning => .spinning
  | .subtractToHalf => SubtractToHalf p
  | .close => Close p

/-- The pool after a sequence of calls, each of which returned before the next began. -/
def runCalls [Element α] : Pool α → List (Call α) → Outcome (Pool α)
  | p, [] => .done p
  | p, c :: rest =>
    match c.exec p with
    | .done q => runCalls q rest
    | .panicked => .panicked
    | .spinning => .spinning

/-- A pool together with the goroutines that are inside `Close()`: for each of them the
statements it has still to execute. -/
structure Sys (α : Type) where
  pool : Pool α
  closers : List (List CloseStmt)

/-- What happens next in a run: a whole call by some goroutine, a goroutine entering
`Close()`, or closer number `i` executing its next statement. -/
inductive Event (α : Type) where
  | call : Call α → Event α
  | closeBegin : Event α
  | closeStep : Nat → Event α

/-- One event.  A closer blocked in `wg.Wait()` stays at that statement and the others go
on; a closer that has finished does nothing. -/
def Sys.step [Element α] (s : Sys α) : Event α → Outcome (Sys α)
  | .call c =>
    match c.exec s.pool with
    | .done q => .done { pool := q, closers := s.closers }
    | .panicked => .panicked
    | .spinning => .spinning
  | .closeBegin => .done { pool := s.pool, closers := s.closers ++ [closeBody] }
  | .closeStep i =>
    match s.closers.getD i [] with
    | [] => .done s
    | stmt :: rest =>
      match stmt.run s.pool with
      | .done q => .done { pool := q, closers := s.closers.set i rest }
      | .panicked => .panicked
      | .spinning => .done s

/-- A run: a sequence of events, none of which panicked. -/
def runEvents [Element α] : Sys α → List (Event α) → Outcome (Sys α)
  | s, [] => .done s
  | s, e :: rest =>
    match s.step e with
    | .done t => runEvents t rest
    | .panicked => .panicked
    | .spinning => .spinning

/-- What holds of a closer with the statements `rest` still to execute: after `cancel` the
pool is cancelled, and after `wait` it is cancelled and without outstanding operation. -/
def closerOK (p : Pool α) (rest : List CloseStmt) : Prop :=
  rest = closeBody ∨ (rest = closeBody.drop 1 ∧ p.cancelled = true) ∨
  (rest = closeBody.drop 2 ∧ p.cancelled = true ∧ p.wg = 0) ∨ rest = []

/-- What every run keeps: `Done` is closed only on a cancelled pool without outstanding
operation, and every closer is where `closerOK` says. -/
def Sys.Inv (s : Sys α) : Prop :=
  (s.pool.Done.closed = true → s.pool.cancelled = true ∧ s.pool.wg = 0) ∧
  ∀ rest ∈ s.closers, closerOK s.pool rest

/-- A pool whose slot array has as many slots as its capacity says and whose `uint64`
fields are in range. -/
def Pool.WF (p : Pool α) : Prop :=
  p.list.length = p.length ∧ p.length < u64 ∧ p.count < u64

/-- A pool that is running: not cancelled, and neither resize barrier fired. -/
def Pool.Running (p : Pool α) : Prop :=
  p.cancelled = false ∧ p.pause.closed = false ∧ p.subtract.closed = false

/-- The number of empty slots of a slot array. -/
def emptySlots (l : List (Option α)) : Nat := l.countP Option.isNone

/-- The two facts that every call keeps: the slot array has as many slots as the capacity
says, and `Done` is closed only on a cancelled pool without outstanding operation. -/
def Pool.Inv (p : Pool α) : Prop :=
  p.list.length = p.length ∧ (p.Done.closed = true → p.cancelled = true ∧ p.wg = 0)

/-- Whether slot `i` of a slot array of `L` slots is the candidate of one of `n` successive
`Pop`s that start with the cursor at `r` modulo `L`, for `r + n ≤ L`: the candidates are
`r + 1, r + 2, ..`, and slot 0 when `r + n` reaches `L`. -/
def inWindow (L r n i : Nat) : Prop :=
  i < L ∧ (r < i ∧ i ≤ r + n ∨ i = 0 ∧ r + n = L ∧ 0 < n)

instance inWindowDecidable (L r n i : Nat) : Decidable (inWindow L r n i) := by
  unfold inWindow; infer_instance

/-- The pool of the test scenario of the specification: what `NewPool(4, ctx, newFunc)`
returns for a live context and a factory that tags its elements `0, 1, 2, ...`. -/
def pool4 : Pool Nat := freshPool 4 false (fun k => k)

/-- A pool of capacity 4 with two elements checked out: slots 1 and 3 are empty. -/
def pool4Holes : Pool Nat :=
  { pool4 with list := [some 0, none, some 2, none], count := 3, wg := 2 }

/-- The pool that `NewPool(3, ..)` returns. -/
def pool3 : Pool Nat := freshPool 3 false (fun k => k)

/-- The pool that `NewPool(2, ..)` returns. -/
def pool2 : Pool Nat := freshPool 2 false (fun k => k)

/-- The pool that `NewPool(1, ..)` returns. -/
def pool1 : Pool Nat := freshPool 1 false (fun k => k)

/-- An element type for the examples: numbers, of which the even ones pass `Check()`. -/
instance evenHealthy : Element Nat where
  Check := fun e => e % 2 == 0

/-- The pool `pool4Holes` after its context was cancelled. -/
def pool4Cancelled : Pool Nat := { pool4Holes with cancelled := true }

/-! ## The loops of the resize operations -/

theorem fillNew_length (f : Nat → α) (k i m : Nat) (l : List (Option α)) :
    (fillNew f k i m l).1.length = l.length := by
  induction k generalizing i m l with
  | zero => simp [fillNew]
  | succ k ih => simp [fillNew, ih]

theorem fillNew_made (f : Nat → α) (k i m : Nat) (l : List (Option α)) :
    (fillNew f k i m l).2 = m + k := by
  induction k generalizing i m l with
  | zero => simp [fillNew]
  | succ k ih => simp [fillNew, ih]; omega

theorem fillNew_getElem? (f : Nat → α) (k i m : Nat) (l : List (Option α)) (j : Nat) :
    (fillNew f k i m l).1[j]? =
      if i ≤ j ∧ j < i + k ∧ j < l.length then some (some (f (m + (j - i)))) else l[j]? := by
  induction k generalizing i m l with
  | zero =>
    have h0 : ¬ (i ≤ j ∧ j < i ∧ j < l.length) := by omega
    simp [fillNew, h0]
  | succ k ih =>
    simp only [fillNew, ih, List.length_set, List.getElem?_set]
    by_cases h1 : i + 1 ≤ j ∧ j < i + 1 + k ∧ j < l.length
    · have h2 : i ≤ j ∧ j < i + (k + 1) ∧ j < l.length := by omega
      have h3 : m + 1 + (j - (i + 1)) = m + (j - i) := by omega
      simp [h1, h2, h3]
    · by_cases h4 : i = j
      · subst h4
        by_cases h5 : i < l.length
        · have h2 : i ≤ i ∧ i < i + (k + 1) ∧ i < l.length := by omega
          simp [h1, h2, h5]
        · have h2 : ¬ (i ≤ i ∧ i < i + (k + 1) ∧ i < l.length) := by omega
          have h6 : l[i]? = none := by simp; omega
          simp [h1, h2, h5, h6]
      · have h2 : ¬ (i ≤ j ∧ j < i + (k + 1) ∧ j < l.length) := by omega
        simp [h1, h2, h4]

theorem refill_length (f : Nat → α) (m : Nat) (l : List (Option α)) :
    (refill f m l).1.length = l.length := by
  induction l generalizing m with
  | nil => simp [refill]
  | cons x rest ih => cases x <;> simp [refill, ih]

theorem refill_made (f : Nat → α) (m : Nat) (l : List (Option α)) :
    (refill f m l).2 = m + emptySlots l := by
  induction l generalizing m with
  | nil => simp [refill, emptySlots]
  | cons x rest ih =>
    cases x with
    | none => simp [refill, ih, emptySlots, List.countP_cons]; omega
    | some e => simp [refill, ih, emptySlots, List.countP_cons]

theorem refill_getElem? (f : Nat → α) (m : Nat) (l : List (Option α)) (i : Nat)
    (hi : i < l.length) :
    (refill f m l).1[i]? =
      some (some ((l.getD i none).getD (f (m + emptySlots (l.take i))))) := by
  induction l generalizing m i with
  | nil => simp at hi
  | cons x rest ih =>
    cases i with
    | zero => cases x <;> simp [refill, emptySlots]
    | succ i =>
      have hi2 : i < rest.length := by simpa using hi
      cases x with
      | none =>
        have h3 : m + (emptySlots (rest.take i) + 1) = m + 1 + emptySlots (rest.take i) := by omega
        simp [refill, ih _ _ hi2, emptySlots, List.countP_cons, h3] at *
      | some e => simp [refill, ih _ _ hi2, emptySlots, List.countP_cons] at *

theorem refill_of_full (f : Nat → α) (m : Nat) (l : List (Option α))
    (h : ∀ x ∈ l, x ≠ none) : (refill f m l).1 = l := by
  induction l generalizing m with
  | nil => simp [refill]
  | cons x rest ih =>
    cases x with
    | none => exact absurd rfl (h none (by simp))
    | some e =>
      simp only [refill]
      rw [ih m (fun y hy => h y (by simp [hy]))]

/-! ## Shrinking -/

theorem SubtractToHalf_done (p : Pool α) (hopen : p.subtract.closed = false)
    (hk : p.length / 2 ≤ p.list.length) :
    SubtractToHalf p = .done { p with
      list := (refill p.newFunc p.made (p.list.take (p.length / 2))).1
      made := (refill p.newFunc p.made (p.list.take (p.length / 2))).2
      length := p.length / 2
      subtract := { id := p.chans, closed := false }
      chans := p.chans + 1 } := by
  have hk2 : ¬ p.list.length < p.length / 2 := by omega
  simp [SubtractToHalf, hopen, hk2]

theorem refill_take_getElem? (p : Pool α) (k i : Nat) (hk : k ≤ p.list.length) (hi : i < k) :
    (refill p.newFunc p.made (p.list.take k)).1[i]? =
      some (some ((p.list.getD i none).getD (p.newFunc (p.made + emptySlots (p.list.take i))))) := by
  have hi2 : i < (p.list.take k).length := by simp; omega
  rw [refill_getElem? _ _ _ _ hi2]
  have h3 : (p.list.take k).getD i none = p.list.getD i none := by
    simp [List.getD_eq_getElem?_getD, List.getElem?_take, hi]
  have h4 : (p.list.take k).take i = p.list.take i := by
    rw [List.take_take]; congr 1; omega
  rw [h3, h4]

theorem SubtractN_done (p : Pool α) (n : Nat) (hopen : p.subtract.closed = false)
    (hlen : p.list.length = p.length) (h2 : n < p.length) :
    SubtractN p n = .done ({ p with
      list := (refill p.newFunc p.made (p.list.take (p.length - n))).1
      made := (refill p.newFunc p.made (p.list.take (p.length - n))).2
      length := p.length - n
      subtract := { id := p.chans, closed := false }
      chans := p.chans + 1 }, none) := by
  have hk : ¬ p.list.length < p.length - n := by omega
  have hn : ¬ p.length ≤ n := by omega
  simp [SubtractN, hn, hopen, hk]

/-- C1: for every pool and every `n` at least its capacity, `SubtractN(n)` returns
`ErrOverRange` and the pool it leaves is the pool it was given: capacity, slot array,
acquire cursor, both barriers and the count of factory calls are all as before. -/
theorem SubtractN_over_range (p : Pool α) (n : Nat) (h : p.length ≤ n) :
    SubtractN p n = .done (p, some PoolError.ErrOverRange) := by
  simp [SubtractN, h]

theorem SubtractN_over_range_witness :
    pool4.length ≤ 5 ∧ SubtractN pool4 5 = .done (pool4, some PoolError.ErrOverRange) :=
  ⟨by decide, SubtractN_over_range pool4 5 (by decide)⟩

/-- C2: on a pool of capacity `C` whose slot array has `C` slots and whose shrink barrier
has not fired, `SubtractN(n)` with `1 ≤ n < C` returns no error; afterwards the capacity
is `C - n`, the slot array has exactly the slots `0 .. C - n - 1`, every element that was
in one of them is still there, and when none of them was empty the array is the prefix of
length `C - n` of the old one. -/
theorem SubtractN_in_range (p : Pool α) (n : Nat) (hlen : p.list.length = p.length)
    (hopen : p.subtract.closed = false) (h1 : 1 ≤ n) (h2 : n < p.length) :
    ∃ q, SubtractN p n = .done (q, none) ∧ q.length = p.length - n ∧
      q.list.length = p.length - n ∧
      (∀ i e, i < p.length - n → p.list[i]? = some (some e) → q.list[i]? = some (some e)) ∧
      ((∀ i, i < p.length - n → p.list[i]? ≠ some none) →
        q.list = p.list.take (p.length - n)) := by
  have hk : p.length - n ≤ p.list.length := by omega
  rw [SubtractN_done p n hopen hlen h2]
  refine ⟨_, rfl, rfl, ?_, ?_, ?_⟩
  · simp [refill_length]; omega
  · intro i e hi he
    show (refill p.newFunc p.made (p.list.take (p.length - n))).1[i]? = _
    rw [refill_take_getElem? p _ i hk hi]
    simp [List.getD_eq_getElem?_getD, he]
  · intro hfull
    show (refill p.newFunc p.made (p.list.take (p.length - n))).1 = _
    apply refill_of_full
    intro x hx hxn
    subst hxn
    obtain ⟨i, hi, hget⟩ := List.getElem_of_mem hx
    have hi2 : i < p.length - n := by
      have := hi; simp at this; omega
    apply hfull i hi2
    have h5 : (p.list.take (p.length - n))[i]? = some none := by
      rw [List.getElem?_eq_getElem hi, hget]
    simpa [List.getElem?_take, hi2] using h5

theorem SubtractN_in_range_witness :
    ∃ q, SubtractN pool4 2 = .done (q, none) ∧ q.length = pool4.length - 2 ∧
      q.list.length = pool4.length - 2 ∧
      (∀ i e, i < pool4.length - 2 → pool4.list[i]? = some (some e) →
        q.list[i]? = some (some e)) ∧
      ((∀ i, i < pool4.length - 2 → pool4.list[i]? ≠ some none) →
        q.list = pool4.list.take (pool4.length - 2)) :=
  SubtractN_in_range pool4 2 (by decide) (by decide) (by decide) (by decide)

/-- C6: after a successful `SubtractN(n)` (`0 < n < C`, slot array of `C` slots, shrink
barrier not fired) every retained slot `i < C - n` is non-empty: a slot that held an
element holds the same element, a slot that was empty holds the result of a factory call
made during this `SubtractN` (call number `made + k`, where `k` counts the empty retained
slots before `i`), and the number of factory calls grows by the number of retained slots
that were empty. -/
theorem SubtractN_refills (p : Pool α) (n : Nat) (hlen : p.list.length = p.length)
    (hopen : p.subtract.closed = false) (h1 : 0 < n) (h2 : n < p.length) :
    ∃ q, SubtractN p n = .done (q, none) ∧
      (∀ i, i < p.length - n → ∃ e, q.list[i]? = some (some e)) ∧
      (∀ i e, i < p.length - n → p.list[i]? = some (some e) → q.list[i]? = some (some e)) ∧
      (∀ i, i < p.length - n → p.list[i]? = some none →
        q.list[i]? = some (some (p.newFunc (p.made + emptySlots (p.list.take i))))) ∧
      q.made = p.made + emptySlots (p.list.take (p.length - n)) := by
  have hk : p.length - n ≤ p.list.length := by omega
  rw [SubtractN_done p n hopen hlen h2]
  refine ⟨_, rfl, ?_, ?_, ?_, ?_⟩
  · intro i hi
    exact ⟨_, refill_take_getElem? p _ i hk hi⟩
  · intro i e hi he
    show (refill p.newFunc p.made (p.list.take (p.length - n))).1[i]? = _
    rw [refill_take_getElem? p _ i hk hi]
    simp [List.getD_eq_getElem?_getD, he]
  · intro i hi he
    show (refill p.newFunc p.made (p.list.take (p.length - n))).1[i]? = _
    rw [refill_take_getElem? p _ i hk hi]
    simp [List.getD_eq_getElem?_getD, he]
  · exact refill_made _ _ _

theorem SubtractN_refills_witness :
    ∃ q, SubtractN pool4Holes 1 = .done (q, none) ∧
      (∀ i, i < pool4Holes.length - 1 → ∃ e, q.list[i]? = some (some e)) ∧
      (∀ i e, i < pool4Holes.length - 1 → pool4Holes.list[i]? = some (some e) →
        q.list[i]? = some (some e)) ∧
      (∀ i, i < pool4Holes.length - 1 → pool4Holes.list[i]? = some none →
        q.list[i]? = some (some (pool4Holes.newFunc
          (pool4Holes.made + emptySlots (pool4Holes.list.take i))))) ∧
      q.made = pool4Holes.made + emptySlots (pool4Holes.list.take (pool4Holes.length - 1)) :=
  SubtractN_refills pool4Holes 1 (by decide) (by decide) (by decide) (by decide)

/-! ## Growing -/

theorem copy_into_fresh (l : List (Option α)) (k : Nat) :
    copy (List.replicate (l.length + k) none) l = l ++ List.replicate k none := by
  simp [copy, List.take_of_length_le]

theorem makePanics_of_fits (n : Nat) (h : n < 2 ^ 63) : makePanics n = false := by
  simp [makePanics]; omega

theorem makePanics_of_large (n : Nat) (h : 2 ^ 63 ≤ n) : makePanics n = true := by
  simp [makePanics]; omega

theorem int_below_u64 : (2 : Nat) ^ 63 + 2 ^ 63 = u64 := by decide

theorem freshPool_length (L : Nat) (ctxDone : Bool) (f : Nat → α) :
    (freshPool L ctxDone f).list.length = (freshPool L ctxDone f).length := by
  show (initialFill f L).1.length = L
  simp [initialFill, fillNew_length]

theorem NewPool_done (L : Nat) (ctxDone : Bool) (f : Nat → α) (hL : L < 2 ^ 63) :
    NewPool L ctxDone f = .done (freshPool L ctxDone f) := by
  simp [NewPool, makePanics_of_fits L hL]

theorem NewPool_returned (L : Nat) (ctxDone : Bool) (f : Nat → α) (p : Pool α)
    (h : NewPool L ctxDone f = .done p) : p = freshPool L ctxDone f ∧ L < 2 ^ 63 := by
  rw [NewPool] at h
  split_ifs at h with hm
  simp only [Outcome.done.injEq] at h
  refine ⟨h.symm, ?_⟩
  simp [makePanics] at hm
  omega

theorem ExtendN_done (p : Pool α) (n : Nat) (hopen : p.pause.closed = false)
    (hfits : (p.length + n) % u64 < 2 ^ 63) :
    ExtendN p n = .done { p with
      list := (fillNew p.newFunc ((p.length + n) % u64 - p.length) p.length p.made
        (copy (List.replicate ((p.length + n) % u64) none) p.list)).1
      made := (fillNew p.newFunc ((p.length + n) % u64 - p.length) p.length p.made
        (copy (List.replicate ((p.length + n) % u64) none) p.list)).2
      length := (p.length + n) % u64
      pause := { id := p.chans, closed := false }
      chans := p.chans + 1 } := by
  simp [ExtendN, hopen, makePanics_of_fits _ hfits]

theorem grown_list (f : Nat → α) (l : List (Option α)) (n m : Nat) :
    (fillNew f n l.length m (l ++ List.replicate n none)).1 =
      l ++ (List.range n).map (fun j => some (f (m + j))) := by
  apply List.ext_getElem?
  intro j
  rw [fillNew_getElem?]
  by_cases hj : j < l.length
  · have h0 : ¬ (l.length ≤ j ∧ j < l.length + n ∧ j < (l ++ List.replicate n none).length) := by
      omega
    simp [h0, List.getElem?_append_left, hj]
  · by_cases hj2 : j < l.length + n
    · have h0 : l.length ≤ j ∧ j < l.length + n ∧ j < (l ++ List.replicate n none).length := by
        simp; omega
      have h1 : j - l.length < n := by omega
      rw [if_pos h0, List.getElem?_append_right (by omega)]
      simp [List.getElem?_range, h1]
    · have h0 : ¬ (l.length ≤ j ∧ j < l.length + n ∧ j < (l ++ List.replicate n none).length) := by
        omega
      rw [if_neg h0, List.getElem?_eq_none (by simp; omega), List.getElem?_eq_none (by simp; omega)]

theorem ExtendN_grown (p : Pool α) (n : Nat) (hlen : p.list.length = p.length)
    (hopen : p.pause.closed = false) (hfit : p.length + n < 2 ^ 63) :
    ExtendN p n = .done { p with
      list := p.list ++ (List.range n).map (fun j => some (p.newFunc (p.made + j)))
      made := p.made + n
      length := p.length + n
      pause := { id := p.chans, closed := false }
      chans := p.chans + 1 } := by
  have h64 : p.length + n < u64 := by
    have := int_below_u64
    omega
  rw [ExtendN_done p n hopen (by rw [Nat.mod_eq_of_lt h64]; exact hfit),
    Nat.mod_eq_of_lt h64]
  have h1 : p.length + n - p.length = n := by omega
  rw [h1, fillNew_made, ← hlen, copy_into_fresh, grown_list]

theorem grown_list_old (f : Nat → α) (l : List (Option α)) (n m i : Nat) (hi : i < l.length) :
    (l ++ (List.range n).map (fun j => some (f (m + j))))[i]? = l[i]? := by
  simp [List.getElem?_append_left, hi]

theorem grown_list_new (f : Nat → α) (l : List (Option α)) (n m j : Nat) (hj : j < n) :
    (l ++ (List.range n).map (fun j => some (f (m + j))))[l.length + j]? =
      some (some (f (m + j))) := by
  rw [List.getElem?_append_right (by omega)]
  simp [List.getElem?_range, hj]

theorem ExtendN_make_panics (p : Pool α) (n : Nat) (hfit : p.length + n < u64)
    (hbig : 2 ^ 63 ≤ p.length + n) : ExtendN p n = .panicked := by
  have hm : makePanics ((p.length + n) % u64) = true := by
    rw [Nat.mod_eq_of_lt hfit]; exact makePanics_of_large _ hbig
  simp [ExtendN, hm]

/-- C3, as stated, fails: the pool that `NewPool(4, ..)` returns has capacity 4 and 4
slots, its grow barrier has not fired, and `4 + 2 ^ 63` is representable in `uint64`; yet
`ExtendN(2 ^ 63)` panics, in `make([]*Element, p.length+n)`, and leaves no capacity
`C + n`. -/
theorem ExtendN_beyond_int_panics :
    NewPool 4 false (fun k : Nat => k) = .done pool4 ∧
    pool4.list.length = pool4.length ∧ pool4.pause.closed = false ∧
    pool4.length + 2 ^ 63 < u64 ∧ ExtendN pool4 (2 ^ 63) = .panicked :=
  ⟨rfl, by decide, by decide, by decide, rfl⟩

/-- C3, amended: on a pool of capacity `C` whose slot array has `C` slots and whose grow
barrier has not fired, with `C + n` representable in `uint64`: when `C + n` is below
`2 ^ 63` (it fits an `int`, as `make` requires), `ExtendN(n)` returns and leaves capacity
`C + n` and a slot array of `C + n` slots; slots `0 .. C - 1` hold what they held before
(the same element or empty), slot `C + j` holds the result of the `j`-th factory call
made during this `ExtendN`, the factory is called exactly `n` times, and the acquire
cursor is unchanged.  When `C + n` is `2 ^ 63` or more, `ExtendN(n)` panics in `make`. -/
theorem ExtendN_grows (p : Pool α) (n : Nat) (hlen : p.list.length = p.length)
    (hopen : p.pause.closed = false) (hfit : p.length + n < u64) :
    (2 ^ 63 ≤ p.length + n → ExtendN p n = .panicked) ∧
    (p.length + n < 2 ^ 63 →
      ∃ q, ExtendN p n = .done q ∧ q.length = p.length + n ∧
        q.list.length = p.length + n ∧
        (∀ i, i < p.length → q.list[i]? = p.list[i]?) ∧
        (∀ j, j < n → q.list[p.length + j]? = some (some (p.newFunc (p.made + j)))) ∧
        q.made = p.made + n ∧ q.count = p.count) := by
  refine ⟨ExtendN_make_panics p n hfit, ?_⟩
  intro hint
  rw [ExtendN_grown p n hlen hopen hint]
  refine ⟨_, rfl, rfl, ?_, ?_, ?_, rfl, rfl⟩
  · simp [hlen]
  · intro i hi
    exact grown_list_old p.newFunc p.list n p.made i (by omega)
  · intro j hj
    rw [← hlen]
    exact grown_list_new p.newFunc p.list n p.made j hj

theorem ExtendN_grows_witness :
    (2 ^ 63 ≤ pool4Holes.length + 2 → ExtendN pool4Holes 2 = .panicked) ∧
    (pool4Holes.length + 2 < 2 ^ 63 →
      ∃ q, ExtendN pool4Holes 2 = .done q ∧ q.length = pool4Holes.length + 2 ∧
        q.list.length = pool4Holes.length + 2 ∧
        (∀ i, i < pool4Holes.length → q.list[i]? = pool4Holes.list[i]?) ∧
        (∀ j, j < 2 → q.list[pool4Holes.length + j]? =
          some (some (pool4Holes.newFunc (pool4Holes.made + j)))) ∧
        q.made = pool4Holes.made + 2 ∧ q.count = pool4Holes.count) :=
  ExtendN_grows pool4Holes 2 (by decide) (by decide) (by decide)

/-- C10, as stated, fails: the pool that `NewPool(2 ^ 62, ..)` returns has capacity
`C = 2 ^ 62` and as many slots, its grow barrier has not fired, and `2 * C = 2 ^ 63` is
representable in `uint64`; yet `Extend2()` panics, in `make([]*Element, p.length*2)`, and
so does `ExtendN(C)`: no pool of capacity `2 * C` results. -/
theorem Extend2_beyond_int_panics :
    ∃ p, NewPool (2 ^ 62) false (fun k : Nat => k) = .done p ∧
      p.length = 2 ^ 62 ∧ p.list.length = p.length ∧ p.pause.closed = false ∧
      2 * p.length < u64 ∧ Extend2 p = .panicked ∧ ExtendN p p.length = .panicked :=
  ⟨freshPool (2 ^ 62) false (fun k => k), NewPool_done _ _ _ (by decide), rfl,
    freshPool_length _ _ _, rfl, by decide,
    by simp [Extend2, makePanics, freshPool, u64],
    by simp [ExtendN, makePanics, freshPool, u64]⟩

/-- C10, amended: on a pool of capacity `C` whose slot array has `C` slots and whose grow
barrier has not fired, with `2 * C` representable in `uint64`, `Extend2()` has the same
outcome as `ExtendN(C)`.  When `2 * C` is below `2 ^ 63` (it fits an `int`, as `make`
requires), it returns, the capacity is `2 * C`, slots `0 .. C - 1` hold what they held
before, slot `C + j` holds the result of the `j`-th factory call made during the call,
and the factory is called exactly `C` times.  When `2 * C` is `2 ^ 63` or more, both
calls panic in `make`. -/
theorem Extend2_eq_ExtendN (p : Pool α) (hlen : p.list.length = p.length)
    (hopen : p.pause.closed = false) (hfit : 2 * p.length < u64) :
    Extend2 p = ExtendN p p.length ∧
    (2 ^ 63 ≤ 2 * p.length → Extend2 p = .panicked) ∧
    (2 * p.length < 2 ^ 63 →
      ∃ q, Extend2 p = .done q ∧ q.length = 2 * p.length ∧
        q.list.length = 2 * p.length ∧
        (∀ i, i < p.length → q.list[i]? = p.list[i]?) ∧
        (∀ j, j < p.length →
          q.list[p.length + j]? = some (some (p.newFunc (p.made + j)))) ∧
        q.made = p.made + p.length) := by
  have heq : Extend2 p = ExtendN p p.length := by
    simp only [Extend2, ExtendN, Nat.mul_two]
  refine ⟨heq, ?_, ?_⟩
  · intro hbig
    rw [heq]
    exact ExtendN_make_panics p p.length (by omega) (by omega)
  · intro hint
    have hfit2 : p.length + p.length < 2 ^ 63 := by omega
    rw [heq, ExtendN_grown p p.length hlen hopen hfit2]
    refine ⟨_, rfl, by show p.length + p.length = 2 * p.length; omega, ?_, ?_, ?_, rfl⟩
    · simp [hlen]; omega
    · intro i hi
      exact grown_list_old p.newFunc p.list p.length p.made i (by omega)
    · intro j hj
      have h := grown_list_new p.newFunc p.list p.length p.made j hj
      rw [hlen] at h
      exact h

theorem Extend2_eq_ExtendN_witness :
    Extend2 pool4Holes = ExtendN pool4Holes pool4Holes.length ∧
    (2 ^ 63 ≤ 2 * pool4Holes.length → Extend2 pool4Holes = .panicked) ∧
    (2 * pool4Holes.length < 2 ^ 63 →
      ∃ q, Extend2 pool4Holes = .done q ∧ q.length = 2 * pool4Holes.length ∧
        q.list.length = 2 * pool4Holes.length ∧
        (∀ i, i < pool4Holes.length → q.list[i]? = pool4Holes.list[i]?) ∧
        (∀ j, j < pool4Holes.length → q.list[pool4Holes.length + j]? =
          some (some (pool4Holes.newFunc (pool4Holes.made + j)))) ∧
        q.made = pool4Holes.made + pool4Holes.length) :=
  Extend2_eq_ExtendN pool4Holes (by decide) (by decide) (by decide)

/-! ## Halving -/

/-- C9, as stated, fails: on the pool `NewPool(3, ..)` the call `SubtractToHalf()` leaves
capacity 1 and the single slot 0, while `SubtractN(3 / 2)` leaves capacity 2 and the slots
0 and 1. -/
theorem SubtractToHalf_differs_on_odd :
    NewPool 3 false (fun k : Nat => k) = .done pool3 ∧
    2 ≤ pool3.length ∧ pool3.list.length = pool3.length ∧
    ∃ q r, SubtractToHalf pool3 = .done q ∧
      SubtractN pool3 (pool3.length / 2) = .done (r, none) ∧
      q.length = 1 ∧ r.length = 2 ∧ q.list = [some 0] ∧ r.list = [some 0, some 1] :=
  ⟨rfl, by decide, by decide, _, _, rfl, rfl, rfl, rfl, rfl, rfl⟩

/-- C9, amended: on a pool of capacity `C ≥ 2` whose slot array has `C` slots and whose
shrink barrier has not fired, `SubtractToHalf()` returns and leaves capacity `C / 2`, in
the very state that the successful call `SubtractN(C - C / 2)` leaves; `SubtractN(C / 2)`
leaves that state exactly when `C` is even (for odd `C` it leaves capacity `C / 2 + 1`). -/
theorem SubtractToHalf_eq_SubtractN (p : Pool α) (hlen : p.list.length = p.length)
    (hopen : p.subtract.closed = false) (h2 : 2 ≤ p.length) :
    ∃ q, SubtractToHalf p = .done q ∧ q.length = p.length / 2 ∧
      SubtractN p (p.length - p.length / 2) = .done (q, none) ∧
      (SubtractN p (p.length / 2) = .done (q, none) ↔ p.length % 2 = 0) ∧
      (p.length % 2 = 1 →
        ∃ r, SubtractN p (p.length / 2) = .done (r, none) ∧ r.length = p.length / 2 + 1) := by
  have hk : p.length / 2 ≤ p.list.length := by omega
  have hsub : p.length - (p.length - p.length / 2) = p.length / 2 := by omega
  have hN : SubtractN p (p.length - p.length / 2) = .done ({ p with
      list := (refill p.newFunc p.made (p.list.take (p.length / 2))).1
      made := (refill p.newFunc p.made (p.list.take (p.length / 2))).2
      length := p.length / 2
      subtract := { id := p.chans, closed := false }
      chans := p.chans + 1 }, none) := by
    rw [SubtractN_done p _ hopen hlen (by omega), hsub]
  have hHalf := SubtractN_done p (p.length / 2) hopen hlen (by omega)
  refine ⟨_, SubtractToHalf_done p hopen hk, rfl, hN, ⟨?_, ?_⟩, ?_⟩
  · intro hsame
    rw [hHalf] at hsame
    have hcap := congrArg Pool.length (Prod.mk.inj (Outcome.done.inj hsame)).1
    have hcap2 : p.length - p.length / 2 = p.length / 2 := hcap
    omega
  · intro heven
    have hhalf : p.length / 2 = p.length - p.length / 2 := by omega
    rw [← hN]
    exact congrArg (SubtractN p) hhalf
  · intro hodd
    exact ⟨_, hHalf, by show p.length - p.length / 2 = p.length / 2 + 1; omega⟩

theorem SubtractToHalf_eq_SubtractN_witness :
    ∃ q, SubtractToHalf pool4Holes = .done q ∧ q.length = pool4Holes.length / 2 ∧
      SubtractN pool4Holes (pool4Holes.length - pool4Holes.length / 2) = .done (q, none) ∧
      (SubtractN pool4Holes (pool4Holes.length / 2) = .done (q, none) ↔
        pool4Holes.length % 2 = 0) ∧
      (pool4Holes.length % 2 = 1 →
        ∃ r, SubtractN pool4Holes (pool4Holes.length / 2) = .done (r, none) ∧
          r.length = pool4Holes.length / 2 + 1) :=
  SubtractToHalf_eq_SubtractN pool4Holes (by decide) (by decide) (by decide)

/-! ## Capacity zero, and `SubtractN(0)` -/

/-- C7: the pool `NewPool(1, ..)` has capacity 1; `SubtractToHalf()` on it returns and
leaves capacity 0 and an empty slot array, and the next `Pop` panics on `count % 0`. -/
theorem SubtractToHalf_reaches_capacity_zero :
    NewPool 1 false (fun k : Nat => k) = .done pool1 ∧
    0 < pool1.length ∧
    ∃ q, SubtractToHalf pool1 = .done q ∧ q.length = 0 ∧ q.list = [] ∧
      ∀ sched fuel, Pop sched fuel q = .panicked :=
  ⟨rfl, by decide, _, rfl, rfl, rfl, fun _ _ => rfl⟩

/-- C8: on the pool left by `NewPool(2, ..)` and one `Pop` (slot 1 empty), `SubtractN(0)`
returns no error, replaces the shrink barrier, and calls the factory to refill slot 1;
the capacity stays 2. -/
theorem SubtractN_zero_accepted :
    NewPool 2 false (fun k : Nat => k) = .done pool2 ∧
    ∃ q r, Pop (fun _ => 0) 1 pool2 = .done (q, some 1) ∧ q.list = [some 0, none] ∧
      SubtractN q 0 = .done (r, none) ∧ r.list = [some 0, some 2] ∧
      r.made = q.made + 1 ∧ r.subtract ≠ q.subtract ∧ r.length = 2 :=
  ⟨rfl, _, _, rfl, rfl, rfl, rfl, rfl, by decide, rfl⟩

/-! ## `Pop` and `Push` -/

theorem goSelect_cancelled (p : Pool α) (pick : Nat) (hc : p.cancelled = true)
    (hp : p.pause.closed = false) (hs : p.subtract.closed = false) :
    goSelect p pick = SelectCase.ctxDone := by
  simp [goSelect, readyCases, hc, hp, hs, Nat.mod_one]

theorem goSelect_running (p : Pool α) (pick : Nat) (hrun : p.Running) :
    goSelect p pick = SelectCase.default := by
  obtain ⟨hc, hp, hs⟩ := hrun
  simp [goSelect, readyCases, hc, hp, hs]

/-- C4: on a pool of positive capacity `C` whose slot array has `C` slots, whose context is
cancelled and whose resize barriers have not fired, `Pop` returns `nil` on its first loop
iteration (any fuel of at least one suffices, whatever the scheduler); the pool it leaves
differs from the one it was given in the acquire cursor only, so no slot lost its element
and the outstanding-operation count is as before. -/
theorem Pop_cancelled (sched : Nat → Nat) (fuel : Nat) (p : Pool α)
    (hlen : p.list.length = p.length) (hpos : 0 < p.length) (hc : p.cancelled = true)
    (hp : p.pause.closed = false) (hs : p.subtract.closed = false) :
    Pop sched (fuel + 1) p = .done ({ p with count := (p.count + 1) % u64 }, none) ∧
    ∃ q, Pop sched (fuel + 1) p = .done (q, none) ∧ q.list = p.list ∧ q.wg = p.wg := by
  have hne : p.length ≠ 0 := by omega
  have hidx : (p.count + 1) % u64 % p.length < p.list.length := by
    rw [hlen]; exact Nat.mod_lt _ hpos
  have hsel : ∀ pick, goSelect { p with wg := p.wg + 1, count := (p.count + 1) % u64 } pick
      = SelectCase.ctxDone := fun pick => goSelect_cancelled _ pick hc hp hs
  have hmain : Pop sched (fuel + 1) p =
      .done ({ p with count := (p.count + 1) % u64 }, none) := by
    simp [Pop, hne, hidx, popLoop, hsel, wgDone]
  exact ⟨hmain, _, hmain, rfl, rfl⟩

theorem Pop_cancelled_witness :
    Pop (fun _ => 0) (0 + 1) pool4Cancelled =
      .done ({ pool4Cancelled with count := (pool4Cancelled.count + 1) % u64 }, none) ∧
    ∃ q, Pop (fun _ => 0) (0 + 1) pool4Cancelled = .done (q, none) ∧
      q.list = pool4Cancelled.list ∧ q.wg = pool4Cancelled.wg :=
  Pop_cancelled (fun _ => 0) 0 pool4Cancelled (by decide) (by decide) (by decide)
    (by decide) (by decide)

theorem exists_first_empty (l : List (Option α)) (h : none ∈ l) :
    ∃ k, k < l.length ∧ l[k]? = some none ∧ ∀ j, j < k → l[j]? ≠ some none := by
  induction l with
  | nil => simp at h
  | cons x rest ih =>
    cases x with
    | none => exact ⟨0, by simp, by simp, by intro j hj; omega⟩
    | some e =>
      have h2 : none ∈ rest := by simpa using h
      obtain ⟨k, hk, hget, hmin⟩ := ih h2
      refine ⟨k + 1, by simp; omega, by simpa using hget, ?_⟩
      intro j hj
      cases j with
      | zero => simp
      | succ j => simpa using hmin j (by omega)

theorem pushLoop_stores (sched : Nat → Nat) (elem : α) (p : Pool α) (k : Nat)
    (hlen : p.list.length = p.length) (hbound : p.length < u64) (hrun : p.Running)
    (hwg : 0 < p.wg) (hk : k < p.length) (hempty : p.list[k]? = some none)
    (hfirst : ∀ j, j < k → p.list[j]? ≠ some none) :
    ∀ (fuel iter count : Nat), count ≤ k → k - count < fuel →
      pushLoop sched elem fuel iter count p =
        .done { p with list := p.list.set k (some elem), wg := p.wg - 1 } := by
  intro fuel
  induction fuel with
  | zero => intro iter count _ hf; omega
  | succ fuel ih =>
    intro iter count hck hf
    have hne : p.length ≠ 0 := by omega
    have hmod : count % p.length = count := Nat.mod_eq_of_lt (by omega)
    have hin : count < p.list.length := by omega
    have hwg0 : p.wg ≠ 0 := by omega
    rw [pushLoop, goSelect_running p _ hrun]
    simp only [hne, if_false, hmod, hin, if_true]
    by_cases hc : count = k
    · subst hc
      have hget : p.list.getD count none = none := by
        simp [List.getD_eq_getElem?_getD, hempty]
      rw [hget]
      simp [wgDone, hwg0]
    · have hlt : count < k := by omega
      have hsome : ∃ x, p.list.getD count none = some x := by
        have h1 := hfirst count hlt
        rw [List.getElem?_eq_getElem hin] at h1
        cases hx : p.list[count] with
        | none => rw [hx] at h1; exact absurd rfl h1
        | some x => exact ⟨x, by simp [List.getD_eq_getElem?_getD, List.getElem?_eq_getElem hin, hx]⟩
      obtain ⟨x, hx⟩ := hsome
      have hnext : (count + 1) % u64 = count + 1 := Nat.mod_eq_of_lt (by omega)
      simp only [hx, hnext]
      exact ih (iter + 1) (count + 1) (by omega) (by omega)

/-- C5: let `e` be an element whose `Check()` is false, and `p` a running pool (not
cancelled, no barrier fired) of capacity `C < 2 ^ 64` with `C` slots, at least one of them
empty, and an outstanding operation registered (the `Pop` that handed `e` out).  Then
`Push(e)` returns (fuel `C` suffices, whatever the scheduler): `Clean()` is called once,
on `e`; the factory is called once; the result of that call is stored in an empty slot
`k`; every other slot is as before; so `e` is in no slot unless it was there already or
the factory returned `e` itself. -/
theorem Push_unhealthy_replaced [Element α] (sched : Nat → Nat) (fuel : Nat) (p : Pool α)
    (e : α) (hwf : p.WF) (hrun : p.Running) (hwg : 0 < p.wg)
    (hcheck : Element.Check e = false) (hempty : none ∈ p.list) (hfuel : p.length ≤ fuel) :
    ∃ q k, Push sched fuel p e = .done q ∧ k < p.length ∧ p.list[k]? = some none ∧
      q.list = p.list.set k (some (p.newFunc p.made)) ∧
      q.cleaned = p.cleaned ++ [e] ∧ q.made = p.made + 1 ∧
      (∀ i : Nat, i ≠ k → q.list[i]? = p.list[i]?) ∧
      (p.newFunc p.made ≠ e → ∀ i : Nat, p.list[i]? ≠ some (some e) →
        q.list[i]? ≠ some (some e)) := by
  obtain ⟨hlen, hbound, _⟩ := hwf
  obtain ⟨k, hk, hget, hmin⟩ := exists_first_empty p.list hempty
  have hk2 : k < p.length := by omega
  have hloop := pushLoop_stores sched (p.newFunc p.made)
    { p with cleaned := p.cleaned ++ [e], made := p.made + 1 } k hlen hbound hrun hwg hk2 hget
    hmin fuel 0 0 (Nat.zero_le k) (by omega)
  have hpush : Push sched fuel p e = pushLoop sched (p.newFunc p.made) fuel 0 0
      { p with cleaned := p.cleaned ++ [e], made := p.made + 1 } := by
    simp [Push, hcheck]
  rw [hpush, hloop]
  refine ⟨_, k, rfl, hk2, hget, rfl, rfl, rfl, ?_, ?_⟩
  · intro i hik
    show (p.list.set k (some (p.newFunc p.made)))[i]? = p.list[i]?
    rw [List.getElem?_set_ne (Ne.symm hik)]
  · intro hfresh i hold
    show (p.list.set k (some (p.newFunc p.made)))[i]? ≠ some (some e)
    by_cases hik : i = k
    · subst hik
      rw [List.getElem?_set_self hk]
      intro h
      exact hfresh (Option.some.inj (Option.some.inj h))
    · rw [List.getElem?_set_ne (Ne.symm hik)]
      exact hold

theorem Push_unhealthy_replaced_witness :
    ∃ q k, Push (fun _ => 0) 4 pool4Holes 7 = .done q ∧ k < pool4Holes.length ∧
      pool4Holes.list[k]? = some none ∧
      q.list = pool4Holes.list.set k (some (pool4Holes.newFunc pool4Holes.made)) ∧
      q.cleaned = pool4Holes.cleaned ++ [7] ∧ q.made = pool4Holes.made + 1 ∧
      (∀ i : Nat, i ≠ k → q.list[i]? = pool4Holes.list[i]?) ∧
      (pool4Holes.newFunc pool4Holes.made ≠ 7 → ∀ i : Nat, pool4Holes.list[i]? ≠ some (some 7) →
        q.list[i]? ≠ some (some 7)) :=
  Push_unhealthy_replaced (fun _ => 0) 4 pool4Holes 7 ⟨by decide, by decide, by decide⟩
    ⟨by decide, by decide, by decide⟩ (by decide) (by decide) (by decide) (by decide)

/-! ## What a returning `Pop` or `Push` leaves untouched -/

theorem goSelect_default_ready (p : Pool α) (pick : Nat)
    (h : goSelect p pick = SelectCase.default) : readyCases p = [] := by
  by_contra hne
  have hpos : 0 < (readyCases p).length := List.length_pos.mpr hne
  have hlt : pick % (readyCases p).length < (readyCases p).length := Nat.mod_lt _ hpos
  have hmem : SelectCase.default ∈ readyCases p := by
    rw [← h, goSelect, List.getD_eq_getElem _ _ hlt]
    exact List.getElem_mem hlt
  simp only [readyCases] at hmem
  split_ifs at hmem <;> simp at hmem

theorem goSelect_default_live (p : Pool α) (pick : Nat)
    (h : goSelect p pick = SelectCase.default) : p.cancelled = false := by
  have h0 := goSelect_default_ready p pick h
  simp only [readyCases] at h0
  cases hc : p.cancelled with
  | false => rfl
  | true => simp [hc] at h0

theorem popLoop_frame (sched : Nat → Nat) (count : Nat) :
    ∀ (fuel iter index : Nat) (p q : Pool α) (r : Option α),
      popLoop sched count fuel iter index p = .done (q, r) →
      q.length = p.length ∧ q.list.length = p.list.length ∧ q.cancelled = p.cancelled ∧
      q.Done = p.Done ∧ q.count = p.count ∧
      (r = none → q.wg + 1 = p.wg ∧ q.list = p.list) ∧
      (r ≠ none → q.wg = p.wg ∧ p.cancelled = false) := by
  intro fuel
  induction fuel with
  | zero => intro iter index p q r h; simp [popLoop] at h
  | succ fuel ih =>
    intro iter index p q r h
    rw [popLoop] at h
    split at h
    · -- ctx.Done()
      simp only [wgDone] at h
      split_ifs at h with hw
      simp only [Outcome.done.injEq, Prod.mk.injEq] at h
      obtain ⟨hq, hr⟩ := h
      subst hq; subst hr
      refine ⟨rfl, rfl, rfl, rfl, rfl, ?_, ?_⟩
      · intro _; exact ⟨by show p.wg - 1 + 1 = p.wg; omega, rfl⟩
      · intro hne; exact absurd rfl hne
    · exact ih _ _ _ _ _ h
    · split_ifs at h
      exact ih _ _ _ _ _ h
    · rename_i hsel
      split at h
      · exact ih _ _ _ _ _ h
      · simp only [Outcome.done.injEq, Prod.mk.injEq] at h
        obtain ⟨hq, hr⟩ := h
        subst hq; subst hr
        refine ⟨rfl, by simp, rfl, rfl, rfl, ?_, ?_⟩
        · intro hnone; simp at hnone
        · intro _; exact ⟨rfl, goSelect_default_live p _ hsel⟩

theorem Pop_frame (sched : Nat → Nat) (fuel : Nat) (p q : Pool α) (r : Option α)
    (h : Pop sched fuel p = .done (q, r)) :
    q.length = p.length ∧ q.list.length = p.list.length ∧ q.cancelled = p.cancelled ∧
    q.Done = p.Done ∧
    (r = none → q.wg = p.wg ∧ q.list = p.list) ∧
    (r ≠ none → q.wg = p.wg + 1 ∧ p.cancelled = false) := by
  rw [Pop] at h
  split_ifs at h
  obtain ⟨h1, h2, h3, h4, _, h6, h7⟩ := popLoop_frame sched _ _ _ _ _ _ _ h
  refine ⟨h1, h2, h3, h4, ?_, ?_⟩
  · intro hr
    obtain ⟨hw, hl⟩ := h6 hr
    exact ⟨by simpa using hw, hl⟩
  · intro hr
    exact h7 hr

theorem pushLoop_frame (sched : Nat → Nat) (elem : α) :
    ∀ (fuel iter count : Nat) (p q : Pool α),
      pushLoop sched elem fuel iter count p = .done q →
      q.length = p.length ∧ q.list.length = p.list.length ∧ q.cancelled = p.cancelled ∧
      q.Done = p.Done ∧ q.wg + 1 = p.wg := by
  intro fuel
  induction fuel with
  | zero => intro iter count p q h; simp [pushLoop] at h
  | succ fuel ih =>
    intro iter count p q h
    rw [pushLoop] at h
    split at h
    · simp only [wgDone] at h
      split_ifs at h with hw
      simp only [Outcome.done.injEq] at h
      subst h
      exact ⟨rfl, rfl, rfl, rfl, by show p.wg - 1 + 1 = p.wg; omega⟩
    · exact ih _ _ _ _ h
    · simp only [wgDone] at h
      split_ifs at h with hw
      simp only [Outcome.done.injEq] at h
      subst h
      exact ⟨rfl, rfl, rfl, rfl, by show p.wg - 1 + 1 = p.wg; omega⟩
    · split_ifs at h
      split at h
      · simp only [wgDone] at h
        split_ifs at h with hw
        simp only [Outcome.done.injEq] at h
        subst h
        exact ⟨rfl, by simp, rfl, rfl, by show p.wg - 1 + 1 = p.wg; omega⟩
      · exact ih _ _ _ _ h

theorem Push_frame [Element α] (sched : Nat → Nat) (fuel : Nat) (p q : Pool α) (e : α)
    (h : Push sched fuel p e = .done q) :
    q.length = p.length ∧ q.list.length = p.list.length ∧ q.cancelled = p.cancelled ∧
    q.Done = p.Done ∧ q.wg + 1 = p.wg := by
  rw [Push] at h
  split_ifs at h
  · exact pushLoop_frame sched e _ _ _ _ _ h
  · exact pushLoop_frame sched _ _ _ _
      { p with cleaned := p.cleaned ++ [e], made := p.made + 1 } _ h

/-! ## `Pop` on a running pool -/

theorem popLoop_spins (sched : Nat → Nat) (count index : Nat) (p : Pool α)
    (hrun : p.Running) (hempty : p.list.getD index none = none) :
    ∀ fuel iter, popLoop sched count fuel iter index p = .spinning := by
  intro fuel
  induction fuel with
  | zero => intro iter; rfl
  | succ fuel ih =>
    intro iter
    rw [popLoop, goSelect_running p _ hrun]
    simp only [hempty]
    exact ih (iter + 1)

theorem popLoop_takes (sched : Nat → Nat) (count fuel iter index : Nat) (p : Pool α) (e : α)
    (hrun : p.Running) (hfull : p.list.getD index none = some e) :
    popLoop sched count (fuel + 1) iter index p =
      .done ({ p with list := p.list.set index none }, some e) := by
  rw [popLoop, goSelect_running p _ hrun]
  simp only [hfull]

theorem Pop_spins (sched : Nat → Nat) (fuel : Nat) (p : Pool α)
    (hlen : p.list.length = p.length) (hpos : 0 < p.length) (hrun : p.Running)
    (hempty : p.list[(p.count + 1) % u64 % p.length]? = some none) :
    Pop sched fuel p = .spinning := by
  have hne : p.length ≠ 0 := by omega
  have hidx : (p.count + 1) % u64 % p.length < p.list.length := by
    rw [hlen]; exact Nat.mod_lt _ hpos
  have hget : p.list.getD ((p.count + 1) % u64 % p.length) none = none := by
    simp [List.getD_eq_getElem?_getD, hempty]
  simp only [Pop, hne, if_false, hidx, if_true]
  exact popLoop_spins sched _ _ { p with wg := p.wg + 1, count := (p.count + 1) % u64 }
    hrun hget fuel 0

theorem Pop_takes (sched : Nat → Nat) (fuel : Nat) (p : Pool α) (e : α)
    (hlen : p.list.length = p.length) (hpos : 0 < p.length) (hrun : p.Running)
    (hfull : p.list[(p.count + 1) % u64 % p.length]? = some (some e)) :
    Pop sched (fuel + 1) p = .done ({ p with
      wg := p.wg + 1
      count := (p.count + 1) % u64
      list := p.list.set ((p.count + 1) % u64 % p.length) none }, some e) := by
  have hne : p.length ≠ 0 := by omega
  have hidx : (p.count + 1) % u64 % p.length < p.list.length := by
    rw [hlen]; exact Nat.mod_lt _ hpos
  have hget : p.list.getD ((p.count + 1) % u64 % p.length) none = some e := by
    simp [List.getD_eq_getElem?_getD, hfull]
  simp only [Pop, hne, if_false, hidx, if_true]
  exact popLoop_takes sched _ fuel 0 _ { p with wg := p.wg + 1, count := (p.count + 1) % u64 }
    e hrun hget

/-- C17, as stated, fails: after `NewPool(2, ..)`, two `Pop`s and the `Push` of the healthy
element 0, slot 0 holds an element and slot 1 is empty; the pool is running; the next
`Pop` has slot 1 as its candidate and never returns, whatever the scheduler and the fuel. -/
theorem Pop_spins_beside_full_slot :
    NewPool 2 false (fun k : Nat => k) = .done pool2 ∧
    ∃ q, runCalls pool2 [.pop (fun _ => 0) 1, .pop (fun _ => 0) 1, .push (fun _ => 0) 2 0]
        = .done q ∧
      q.list = [some 0, none] ∧ q.Running ∧ (q.count + 1) % u64 % q.length = 1 ∧
      ∀ sched fuel, Pop sched fuel q = .spinning :=
  ⟨rfl, _, rfl, rfl, ⟨rfl, rfl, rfl⟩, by decide,
    fun sched fuel => Pop_spins sched fuel _ rfl (by decide) ⟨rfl, rfl, rfl⟩ rfl⟩

/-- C17, amended: on a running pool (no barrier fired) of positive capacity `C` with `C`
slots, `Pop` increments the acquire cursor once, on entry, and its candidate slot is that
cursor modulo `C` for the whole call.  When the candidate slot holds an element, `Pop`
returns it on its first iteration and empties the slot.  When the candidate slot is
empty, `Pop` retries the same slot on every iteration and, running alone, never returns
(whatever the fuel), also when other slots hold elements. -/
theorem Pop_stays_on_candidate (sched : Nat → Nat) (fuel : Nat) (p : Pool α)
    (hlen : p.list.length = p.length) (hpos : 0 < p.length) (hrun : p.Running) :
    (p.list[(p.count + 1) % u64 % p.length]? = some none → Pop sched fuel p = .spinning) ∧
    (∀ e, p.list[(p.count + 1) % u64 % p.length]? = some (some e) →
      Pop sched (fuel + 1) p = .done ({ p with
        wg := p.wg + 1
        count := (p.count + 1) % u64
        list := p.list.set ((p.count + 1) % u64 % p.length) none }, some e)) :=
  ⟨fun h => Pop_spins sched fuel p hlen hpos hrun h,
   fun e h => Pop_takes sched fuel p e hlen hpos hrun h⟩

theorem Pop_stays_on_candidate_witness :
    (pool4Holes.list[(pool4Holes.count + 1) % u64 % pool4Holes.length]? = some none →
      Pop (fun _ => 0) 3 pool4Holes = .spinning) ∧
    (∀ e, pool4Holes.list[(pool4Holes.count + 1) % u64 % pool4Holes.length]? = some (some e) →
      Pop (fun _ => 0) (3 + 1) pool4Holes = .done ({ pool4Holes with
        wg := pool4Holes.wg + 1
        count := (pool4Holes.count + 1) % u64
        list := pool4Holes.list.set ((pool4Holes.count + 1) % u64 % pool4Holes.length) none },
        some e)) :=
  Pop_stays_on_candidate (fun _ => 0) 3 pool4Holes (by decide) (by decide)
    ⟨by decide, by decide, by decide⟩

/-! ## The outstanding-operation count -/

/-- C18, as stated, fails: on the fresh pool `NewPool(4, ..)` a `Pop` returns an element
and leaves the `WaitGroup` counter at 1, not at the 0 it found; on a pool with counter 2
the `Push` of a healthy element leaves the counter at 1. -/
theorem Pop_and_Push_change_wg :
    NewPool 4 false (fun k : Nat => k) = .done pool4 ∧
    (∃ q e, Pop (fun _ => 0) 1 pool4 = .done (q, some e) ∧ pool4.wg = 0 ∧ q.wg = 1) ∧
    (∃ q, Push (fun _ => 0) 4 pool4Holes 8 = .done q ∧ pool4Holes.wg = 2 ∧ q.wg = 1) :=
  ⟨rfl, ⟨_, _, rfl, rfl, rfl⟩, ⟨_, rfl, rfl, rfl⟩⟩

/-- C18, amended: a `Pop` that returns `nil` leaves the outstanding-operation count as it
found it (it registers and deregisters); a `Pop` that returns an element leaves the count
one higher (it registers and does not deregister); every `Push` that returns leaves the
count one lower (it deregisters and never registers).  So the count is restored by a
`Pop` that returns an element together with one later `Push`. -/
theorem wg_bookkeeping [Element α] (sched sched2 : Nat → Nat) (fuel fuel2 : Nat)
    (p q p2 q2 : Pool α) (r : Option α) (e : α)
    (hpop : Pop sched fuel p = .done (q, r)) (hpush : Push sched2 fuel2 p2 e = .done q2) :
    (r = none → q.wg = p.wg) ∧ (r ≠ none → q.wg = p.wg + 1) ∧ q2.wg + 1 = p2.wg := by
  obtain ⟨_, _, _, _, h5, h6⟩ := Pop_frame sched fuel p q r hpop
  obtain ⟨_, _, _, _, h7⟩ := Push_frame sched2 fuel2 p2 q2 e hpush
  exact ⟨fun hr => (h5 hr).1, fun hr => (h6 hr).1, h7⟩

theorem wg_bookkeeping_witness :
    ((some 1 : Option Nat) = none →
      ({ pool4 with wg := 1, count := 1, list := [some 0, none, some 2, some 3] } : Pool Nat).wg
        = pool4.wg) ∧
    ((some 1 : Option Nat) ≠ none →
      ({ pool4 with wg := 1, count := 1, list := [some 0, none, some 2, some 3] } : Pool Nat).wg
        = pool4.wg + 1) ∧
    ({ pool4Holes with wg := 1, list := [some 0, some 8, some 2, none] } : Pool Nat).wg + 1
      = pool4Holes.wg :=
  wg_bookkeeping (fun _ => 0) (fun _ => 0) 1 4 pool4 _ pool4Holes _ (some 1) 8 rfl rfl

/-! ## `Push` of a healthy element, `Push` after cancellation -/

/-- C19: let `e` be an element whose `Check()` is true, and `p` a running pool (not
cancelled, no barrier fired) of capacity `C < 2 ^ 64` with `C` slots, at least one of them
empty, and an outstanding operation registered.  Then `Push(e)` returns (fuel `C`
suffices, whatever the scheduler) and stores `e` in the empty slot of lowest index: the
scan starts at index 0 in every call.  Every other slot is as before, and neither
`Clean()` nor the factory is called. -/
theorem Push_healthy_lowest [Element α] (sched : Nat → Nat) (fuel : Nat) (p : Pool α)
    (e : α) (hwf : p.WF) (hrun : p.Running) (hwg : 0 < p.wg)
    (hcheck : Element.Check e = true) (hempty : none ∈ p.list) (hfuel : p.length ≤ fuel) :
    ∃ q k, Push sched fuel p e = .done q ∧ k < p.length ∧ p.list[k]? = some none ∧
      (∀ j : Nat, j < k → p.list[j]? ≠ some none) ∧
      q.list = p.list.set k (some e) ∧ q.list[k]? = some (some e) ∧
      (∀ i : Nat, i ≠ k → q.list[i]? = p.list[i]?) ∧
      q.cleaned = p.cleaned ∧ q.made = p.made := by
  obtain ⟨hlen, hbound, _⟩ := hwf
  obtain ⟨k, hk, hget, hmin⟩ := exists_first_empty p.list hempty
  have hk2 : k < p.length := by omega
  have hloop := pushLoop_stores sched e p k hlen hbound hrun hwg hk2 hget hmin fuel 0 0
    (Nat.zero_le k) (by omega)
  have hpush : Push sched fuel p e = pushLoop sched e fuel 0 0 p := by
    simp [Push, hcheck]
  rw [hpush, hloop]
  refine ⟨_, k, rfl, hk2, hget, hmin, rfl, ?_, ?_, rfl, rfl⟩
  · show (p.list.set k (some e))[k]? = some (some e)
    rw [List.getElem?_set_self hk]
  · intro i hik
    show (p.list.set k (some e))[i]? = p.list[i]?
    rw [List.getElem?_set_ne (Ne.symm hik)]

theorem Push_healthy_lowest_witness :
    ∃ q k, Push (fun _ => 0) 4 pool4Holes 8 = .done q ∧ k < pool4Holes.length ∧
      pool4Holes.list[k]? = some none ∧
      (∀ j : Nat, j < k → pool4Holes.list[j]? ≠ some none) ∧
      q.list = pool4Holes.list.set k (some 8) ∧ q.list[k]? = some (some 8) ∧
      (∀ i : Nat, i ≠ k → q.list[i]? = pool4Holes.list[i]?) ∧
      q.cleaned = pool4Holes.cleaned ∧ q.made = pool4Holes.made :=
  Push_healthy_lowest (fun _ => 0) 4 pool4Holes 8 ⟨by decide, by decide, by decide⟩
    ⟨by decide, by decide, by decide⟩ (by decide) (by decide) (by decide) (by decide)

/-- C13: on a pool whose context is cancelled, whose resize barriers have not fired and
which has an outstanding operation registered, `Push(e)` returns on its first loop
iteration (any fuel of at least one, whatever the scheduler); `Clean()` is called on `e`
exactly once (for an `e` that fails `Check()` the factory is called as well and the
replacement is cleaned too); nothing is stored: the slot array is as before. -/
theorem Push_cancelled [Element α] (sched : Nat → Nat) (fuel : Nat) (p : Pool α) (e : α)
    (hc : p.cancelled = true) (hp : p.pause.closed = false) (hs : p.subtract.closed = false)
    (hwg : 0 < p.wg) :
    ∃ q, Push sched (fuel + 1) p e = .done q ∧ q.list = p.list ∧
      q.cleaned = p.cleaned ++ (if Element.Check e then [e] else [e, p.newFunc p.made]) ∧
      q.length = p.length ∧ q.wg + 1 = p.wg := by
  have hw : p.wg ≠ 0 := by omega
  by_cases hcheck : Element.Check e = true
  · have hsel : ∀ pick, goSelect p pick = SelectCase.ctxDone :=
      fun pick => goSelect_cancelled p pick hc hp hs
    refine ⟨{ p with cleaned := p.cleaned ++ [e], wg := p.wg - 1 }, ?_, rfl, ?_, rfl, ?_⟩
    · simp [Push, hcheck, pushLoop, hsel, wgDone, hw]
    · simp [hcheck]
    · show p.wg - 1 + 1 = p.wg; omega
  · have hsel : ∀ pick, goSelect
        { p with cleaned := p.cleaned ++ [e], made := p.made + 1 } pick = SelectCase.ctxDone :=
      fun pick => goSelect_cancelled _ pick hc hp hs
    refine ⟨{ p with
      cleaned := p.cleaned ++ [e] ++ [p.newFunc p.made]
      made := p.made + 1
      wg := p.wg - 1 }, ?_, rfl, ?_, rfl, ?_⟩
    · simp [Push, hcheck, pushLoop, hsel, wgDone, hw]
    · simp [hcheck]
    · show p.wg - 1 + 1 = p.wg; omega

theorem Push_cancelled_witness :
    ∃ q, Push (fun _ => 0) (0 + 1) pool4Cancelled 7 = .done q ∧ q.list = pool4Cancelled.list ∧
      q.cleaned = pool4Cancelled.cleaned ++
        (if Element.Check (7 : Nat) then [7] else [7, pool4Cancelled.newFunc pool4Cancelled.made]) ∧
      q.length = pool4Cancelled.length ∧ q.wg + 1 = pool4Cancelled.wg :=
  Push_cancelled (fun _ => 0) 0 pool4Cancelled 7 (by decide) (by decide) (by decide) (by decide)

/-! ## `Close` -/

theorem Close_eq (p : Pool α) :
    Close p =
      if p.wg ≠ 0 then .spinning
      else if p.Done.closed then .panicked
      else .done { p with cancelled := true, Done := { id := p.Done.id, closed := true } } := by
  by_cases hw : p.wg = 0
  · by_cases hd : p.Done.closed = true
    · simp [Close, closeBody, runStmts, CloseStmt.run, hw, hd]
    · simp [Close, closeBody, runStmts, CloseStmt.run, hw, hd]
  · simp [Close, closeBody, runStmts, CloseStmt.run, hw]

/-- C14, as stated, fails: `Close()` on the fresh pool `NewPool(4, ..)` returns with
`Done` closed, and a second `Close()` on the pool it leaves panics. -/
theorem Close_twice_panics :
    NewPool 4 false (fun k : Nat => k) = .done pool4 ∧
    ∃ q, Close pool4 = .done q ∧ q.cancelled = true ∧ q.Done.closed = true ∧
      Close q = .panicked :=
  ⟨rfl, _, rfl, rfl, rfl, rfl⟩

/-- C14, amended: whenever a call of `Close()` returns, it leaves the pool cancelled, with
no outstanding operation and with `Done` closed, and a second call of `Close()` on that
pool panics, because it closes `Done` again. -/
theorem Close_again_panics (p q : Pool α) (h : Close p = .done q) :
    q.cancelled = true ∧ q.wg = 0 ∧ q.Done.closed = true ∧ Close q = .panicked := by
  rw [Close_eq] at h
  split_ifs at h with hw hd
  simp only [Outcome.done.injEq] at h
  subst h
  have hw0 : p.wg = 0 := by simpa using hw
  refine ⟨rfl, hw0, rfl, ?_⟩
  simp [Close_eq, hw0]

theorem Close_again_panics_witness :
    ({ pool4 with cancelled := true, Done := { id := 2, closed := true } } : Pool Nat).cancelled
      = true ∧
    ({ pool4 with cancelled := true, Done := { id := 2, closed := true } } : Pool Nat).wg = 0 ∧
    ({ pool4 with cancelled := true, Done := { id := 2, closed := true } } : Pool Nat).Done.closed
      = true ∧
    Close ({ pool4 with cancelled := true, Done := { id := 2, closed := true } } : Pool Nat)
      = .panicked :=
  Close_again_panics pool4 _ rfl

/-! ## What every sequence of calls keeps -/

theorem copy_length {β : Type} (dst src : List β) : (copy dst src).length = dst.length := by
  simp [copy]; omega

theorem freshPool_inv (L : Nat) (ctxDone : Bool) (f : Nat → α) :
    (freshPool L ctxDone f).Inv := by
  refine ⟨freshPool_length L ctxDone f, ?_⟩
  intro h; simp [freshPool] at h

theorem NewPool_inv (L : Nat) (ctxDone : Bool) (f : Nat → α) (p : Pool α)
    (h : NewPool L ctxDone f = .done p) : p.Inv := by
  rw [(NewPool_returned L ctxDone f p h).1]
  exact freshPool_inv L ctxDone f

theorem ExtendN_inv (p q : Pool α) (n : Nat) (hinv : p.Inv) (h : ExtendN p n = .done q) :
    q.Inv := by
  rw [ExtendN] at h
  split_ifs at h
  simp only [Outcome.done.injEq] at h
  subst h
  refine ⟨?_, hinv.2⟩
  show (fillNew _ _ _ _ _).1.length = _
  rw [fillNew_length, copy_length, List.length_replicate]

theorem Extend2_inv (p q : Pool α) (hinv : p.Inv) (h : Extend2 p = .done q) : q.Inv := by
  rw [Extend2] at h
  split_ifs at h
  simp only [Outcome.done.injEq] at h
  subst h
  refine ⟨?_, hinv.2⟩
  show (fillNew _ _ _ _ _).1.length = _
  rw [fillNew_length, copy_length, List.length_replicate]

theorem SubtractN_inv (p q : Pool α) (n : Nat) (err : Option PoolError) (hinv : p.Inv)
    (h : SubtractN p n = .done (q, err)) : q.Inv := by
  rw [SubtractN] at h
  split_ifs at h with h1 h2 h3
  · simp only [Outcome.done.injEq, Prod.mk.injEq] at h
    rw [← h.1]; exact hinv
  · simp only [Outcome.done.injEq, Prod.mk.injEq] at h
    rw [← h.1]
    refine ⟨?_, hinv.2⟩
    show (refill _ _ _).1.length = p.length - n
    rw [refill_length, List.length_take]
    omega

theorem SubtractToHalf_inv (p q : Pool α) (hinv : p.Inv) (h : SubtractToHalf p = .done q) :
    q.Inv := by
  rw [SubtractToHalf] at h
  split_ifs at h with h2 h3
  simp only [Outcome.done.injEq] at h
  subst h
  refine ⟨?_, hinv.2⟩
  show (refill _ _ _).1.length = p.length / 2
  rw [refill_length, List.length_take]
  omega

theorem Close_inv (p q : Pool α) (hinv : p.Inv) (h : Close p = .done q) : q.Inv := by
  rw [Close_eq] at h
  split_ifs at h with hw hd
  simp only [Outcome.done.injEq] at h
  subst h
  exact ⟨hinv.1, fun _ => ⟨rfl, by simpa using hw⟩⟩

theorem Pop_inv (sched : Nat → Nat) (fuel : Nat) (p q : Pool α) (r : Option α)
    (hinv : p.Inv) (h : Pop sched fuel p = .done (q, r)) : q.Inv := by
  obtain ⟨h1, h2, h3, h4, h5, h6⟩ := Pop_frame sched fuel p q r h
  refine ⟨by rw [h2, h1]; exact hinv.1, ?_⟩
  intro hd
  rw [h4] at hd
  obtain ⟨hc, hw⟩ := hinv.2 hd
  cases r with
  | none => exact ⟨by rw [h3]; exact hc, by rw [(h5 rfl).1]; exact hw⟩
  | some e =>
    have := (h6 (by simp)).2
    rw [hc] at this
    exact absurd this (by simp)

theorem Push_inv [Element α] (sched : Nat → Nat) (fuel : Nat) (p q : Pool α) (e : α)
    (hinv : p.Inv) (h : Push sched fuel p e = .done q) : q.Inv := by
  obtain ⟨h1, h2, h3, h4, h5⟩ := Push_frame sched fuel p q e h
  refine ⟨by rw [h2, h1]; exact hinv.1, ?_⟩
  intro hd
  rw [h4] at hd
  obtain ⟨_, hw⟩ := hinv.2 hd
  omega

theorem exec_inv [Element α] (c : Call α) (p q : Pool α) (hinv : p.Inv)
    (h : c.exec p = .done q) : q.Inv := by
  cases c with
  | pop sched fuel =>
    simp only [Call.exec] at h
    split at h
    · rename_i q2 r hpop
      simp only [Outcome.done.injEq] at h
      subst h
      exact Pop_inv sched fuel p _ r hinv hpop
    · simp at h
    · simp at h
  | push sched fuel e => exact Push_inv sched fuel p q e hinv h
  | extendN n => exact ExtendN_inv p q n hinv h
  | extend2 => exact Extend2_inv p q hinv h
  | subtractN n =>
    simp only [Call.exec] at h
    split at h
    · rename_i q2 err hsub
      simp only [Outcome.done.injEq] at h
      subst h
      exact SubtractN_inv p _ n err hinv hsub
    · simp at h
    · simp at h
  | subtractToHalf => exact SubtractToHalf_inv p q hinv h
  | close => exact Close_inv p q hinv h

theorem runCalls_inv [Element α] (calls : List (Call α)) :
    ∀ (p q : Pool α), p.Inv → runCalls p calls = .done q → q.Inv := by
  induction calls with
  | nil =>
    intro p q hinv h
    simp only [runCalls, Outcome.done.injEq] at h
    subst h; exact hinv
  | cons c rest ih =>
    intro p q hinv h
    simp only [runCalls] at h
    split at h
    · rename_i q2 hexec
      exact ih q2 q (exec_inv c p q2 hinv hexec) h
    · simp at h
    · simp at h

/-! ## Successive `Pop`s -/

theorem mod_next (c L : Nat) (hL : 0 < L) :
    (c + 1) % L = if c % L + 1 < L then c % L + 1 else 0 := by
  have hr : c % L < L := Nat.mod_lt _ hL
  rw [← Nat.mod_add_mod c L 1]
  split_ifs with h
  · exact Nat.mod_eq_of_lt h
  · have : c % L + 1 = L := by omega
    rw [this, Nat.mod_self]

theorem mod_upto (x L : Nat) (hx : x ≤ L) : x % L = if x < L then x else 0 := by
  split_ifs with h
  · exact Nat.mod_eq_of_lt h
  · have : x = L := by omega
    rw [this, Nat.mod_self]

theorem popN_zero (sched : Nat → Nat) (fuel : Nat) (p : Pool α) :
    popN sched fuel 0 p = .done (p, []) := rfl

theorem popN_succ (sched : Nat → Nat) (fuel n : Nat) (p q q2 : Pool α) (r : Option α)
    (rs : List (Option α)) (h1 : Pop sched fuel p = .done (q, r))
    (h2 : popN sched fuel n q = .done (q2, rs)) :
    popN sched fuel (n + 1) p = .done (q2, r :: rs) := by
  simp only [popN, h1, h2]

theorem inWindow_zero (L r i : Nat) : ¬ inWindow L r 0 i := by
  unfold inWindow; omega

theorem inWindow_succ (L r n i idx : Nat) (hr : r < L) (hw : r + (n + 1) ≤ L)
    (hidx : idx = if r + 1 < L then r + 1 else 0) :
    inWindow L r (n + 1) i ↔ (i = idx ∨ inWindow L idx n i) := by
  unfold inWindow
  subst hidx
  split_ifs with h <;> constructor <;> intro h2 <;> omega

theorem popN_window (sched : Nat → Nat) (fuel : Nat) :
    ∀ (n : Nat) (p : Pool α), p.list.length = p.length → p.Running → 0 < p.length →
      p.count + n < u64 → p.count % p.length + n ≤ p.length →
      (∀ i, inWindow p.length (p.count % p.length) n i → ∃ e, p.list[i]? = some (some e)) →
      ∃ q, popN sched (fuel + 1) n p =
          .done (q, (List.range n).map
            (fun j => p.list.getD ((p.count % p.length + 1 + j) % p.length) none)) ∧
        q.length = p.length ∧ q.list.length = p.length ∧ q.Running ∧
        q.count = p.count + n ∧ q.wg = p.wg + n ∧ q.made = p.made ∧ q.cleaned = p.cleaned ∧
        q.newFunc = p.newFunc ∧
        ∀ i : Nat, q.list[i]? =
          if inWindow p.length (p.count % p.length) n i then some none else p.list[i]? := by
  intro n
  induction n with
  | zero =>
    intro p hlen hrun hpos hc hw hfull
    refine ⟨p, rfl, rfl, hlen, hrun, rfl, rfl, rfl, rfl, rfl, ?_⟩
    intro i
    simp [inWindow_zero]
  | succ n ih =>
    intro p hlen hrun hpos hc hw hfull
    have hr : p.count % p.length < p.length := Nat.mod_lt _ hpos
    have hcnt : (p.count + 1) % u64 = p.count + 1 := Nat.mod_eq_of_lt (by omega)
    have hidx := mod_next p.count p.length hpos
    have hidxlt : (p.count + 1) % p.length < p.length := Nat.mod_lt _ hpos
    have hwin : inWindow p.length (p.count % p.length) (n + 1) ((p.count + 1) % p.length) := by
      unfold inWindow
      rw [hidx]
      split_ifs with h <;> omega
    obtain ⟨e, he⟩ := hfull _ hwin
    have hpop := Pop_takes sched fuel p e hlen hpos hrun (by rw [hcnt]; exact he)
    rw [hcnt] at hpop
    have hstep := ih { p with
        wg := p.wg + 1
        count := p.count + 1
        list := p.list.set ((p.count + 1) % p.length) none }
      (by simp [hlen]) hrun hpos (by show p.count + 1 + n < u64; omega)
      (by
        show (p.count + 1) % p.length + n ≤ p.length
        rw [hidx]; split_ifs with h <;> omega)
      (by
        intro i hi
        have hi2 : inWindow p.length ((p.count + 1) % p.length) n i := hi
        have hne : (p.count + 1) % p.length ≠ i := by
          unfold inWindow at hi2
          rw [hidx] at hi2 ⊢
          split_ifs at hi2 ⊢ with h <;> omega
        have hi3 : inWindow p.length (p.count % p.length) (n + 1) i := by
          unfold inWindow at hi2 ⊢
          rw [hidx] at hi2
          split_ifs at hi2 with h <;> omega
        obtain ⟨e2, he2⟩ := hfull i hi3
        exact ⟨e2, by
          show (p.list.set ((p.count + 1) % p.length) none)[i]? = _
          rw [List.getElem?_set_ne hne]; exact he2⟩)
    obtain ⟨q, hq, h1, h2, h3, h4, h5, h6, h7, h8, h9⟩ := hstep
    refine ⟨q, ?_, h1, h2, h3, ?_, ?_, h6, h7, h8, ?_⟩
    · rw [popN_succ sched (fuel + 1) n p _ q (some e) _ hpop hq]
      have hhead : p.list.getD ((p.count % p.length + 1 + 0) % p.length) none = some e := by
        rw [Nat.add_zero, Nat.mod_add_mod, List.getD_eq_getElem?_getD, he]; rfl
      have htail : ∀ j ∈ List.range n,
          (p.list.set ((p.count + 1) % p.length) none).getD
            (((p.count + 1) % p.length + 1 + j) % p.length) none =
          p.list.getD ((p.count % p.length + 1 + (j + 1)) % p.length) none := by
        intro j hj
        have hjn : j < n := List.mem_range.mp hj
        have hlt : p.count % p.length + 1 < p.length := by omega
        have hidx2 : (p.count + 1) % p.length = p.count % p.length + 1 := by
          rw [hidx, if_pos hlt]
        have hsame : (p.count + 1) % p.length + 1 + j = p.count % p.length + 1 + (j + 1) := by
          omega
        have hup := mod_upto (p.count % p.length + 1 + (j + 1)) p.length (by omega)
        have hne : (p.count + 1) % p.length ≠
            (p.count % p.length + 1 + (j + 1)) % p.length := by
          rw [hup, hidx2]; split_ifs <;> omega
        rw [hsame, List.getD_eq_getElem?_getD, List.getElem?_set_ne hne,
          ← List.getD_eq_getElem?_getD]
      rw [List.range_succ_eq_map, List.map_cons, List.map_map, hhead]
      congr 2
      exact congrArg (List.cons (some e)) (List.map_congr_left htail)
    · rw [h4]; show p.count + 1 + n = p.count + (n + 1); omega
    · rw [h5]; show p.wg + 1 + n = p.wg + (n + 1); omega
    · intro i
      rw [h9]
      show (if inWindow p.length ((p.count + 1) % p.length) n i then some none
        else (p.list.set ((p.count + 1) % p.length) none)[i]?) = _
      have hiff := inWindow_succ p.length (p.count % p.length) n i _ hr hw hidx
      by_cases hA : inWindow p.length ((p.count + 1) % p.length) n i
      · rw [if_pos hA, if_pos (hiff.mpr (Or.inr hA))]
      · rw [if_neg hA]
        by_cases hi : i = (p.count + 1) % p.length
        · rw [if_pos (hiff.mpr (Or.inl hi)), hi, List.getElem?_set_self (by omega)]
        · rw [if_neg (fun h => (hiff.mp h).elim hi hA), List.getElem?_set_ne (Ne.symm hi)]

theorem window_results_rotate {β : Type} (l : List β) (d : β) :
    (List.range l.length).map (fun j => l.getD ((0 + 1 + j) % l.length) d) = l.rotate 1 := by
  apply List.ext_getElem?
  intro i
  by_cases hi : i < l.length
  · have hpos : 0 < l.length := by omega
    have hk : (i + 1) % l.length < l.length := Nat.mod_lt _ hpos
    rw [List.getElem?_rotate hi, List.getElem?_map, List.getElem?_range hi]
    simp only [Option.map_some']
    rw [show 0 + 1 + i = i + 1 by omega, List.getD_eq_getElem _ _ hk,
      List.getElem?_eq_getElem hk]
  · rw [List.getElem?_eq_none (by simp; omega), List.getElem?_eq_none (by simp; omega)]

theorem freshPool_list (L : Nat) (ctxDone : Bool) (f : Nat → α) (hL : L < 2 ^ 63) :
    (freshPool L ctxDone f).list = (List.range L).map (fun i => some (f i)) ∧
    (freshPool L ctxDone f).made = L := by
  have h1 := grown_list f [] L 0
  have h2 := fillNew_made f L 0 0 (List.replicate L none)
  simp only [List.length_nil, List.nil_append, Nat.zero_add] at h1
  refine ⟨?_, ?_⟩
  · show (initialFill f L).1 = _
    simp only [initialFill, hL, if_true]
    exact h1
  · show (initialFill f L).2 = _
    simp only [initialFill, hL, if_true]
    omega

theorem freshPool_running (L : Nat) (f : Nat → α) : (freshPool L false f).Running :=
  ⟨rfl, rfl, rfl⟩

theorem all_popped (p q : Pool α) (hq : q.list.length = p.length)
    (hp : p.list.length = p.length)
    (h : ∀ i : Nat, q.list[i]? =
      if inWindow p.length 0 p.length i then some none else p.list[i]?) :
    q.list = List.replicate p.length none := by
  apply List.ext_getElem?
  intro i
  rw [h i]
  by_cases hi : i < p.length
  · have hw : inWindow p.length 0 p.length i := by unfold inWindow; omega
    rw [if_pos hw, List.getElem?_replicate]
    simp [hi]
  · have hw : ¬ inWindow p.length 0 p.length i := by unfold inWindow; omega
    rw [if_neg hw, List.getElem?_eq_none (by omega), List.getElem?_eq_none (by simp; omega)]

theorem popN_round (sched : Nat → Nat) (fuel : Nat) (p : Pool α)
    (hlen : p.list.length = p.length) (hrun : p.Running) (hpos : 0 < p.length)
    (hc : p.count + p.length < u64) (hzero : p.count % p.length = 0)
    (hfull : ∀ i, i < p.length → ∃ e, p.list[i]? = some (some e)) :
    ∃ q, popN sched (fuel + 1) p.length p = .done (q, p.list.rotate 1) ∧
      q.length = p.length ∧ q.list = List.replicate p.length none ∧ q.Running ∧
      q.count = p.count + p.length ∧ q.wg = p.wg + p.length ∧ q.made = p.made ∧
      q.cleaned = p.cleaned ∧ q.newFunc = p.newFunc := by
  obtain ⟨q, h0, h1, h2, h3, h4, h5, h6, h7, h8, h9⟩ :=
    popN_window sched fuel p.length p hlen hrun hpos hc (by omega)
      (fun i hi => hfull i hi.1)
  rw [hzero] at h0 h9
  have hrot := window_results_rotate p.list (none : Option α)
  rw [hlen] at hrot
  rw [hrot] at h0
  exact ⟨q, h0, h1, all_popped p q h2 hlen h9, h3, h4, h5, h6, h7, h8⟩

theorem fresh_full (L : Nat) (f : Nat → α) (i : Nat) (hi : i < L) :
    ∃ e, ((List.range L).map (fun i => some (f i)))[i]? = some (some e) :=
  ⟨f i, by simp [List.getElem?_range, hi]⟩

theorem fresh_nodup (L : Nat) (f : Nat → α)
    (hinj : ∀ i j, i < L → j < L → f i = f j → i = j) :
    ((List.range L).map (fun i => some (f i))).Nodup := by
  apply List.Nodup.map_on _ (List.nodup_range L)
  intro x hx y hy hxy
  exact hinj x y (List.mem_range.mp hx) (List.mem_range.mp hy) (Option.some.inj hxy)

/-- C11: for every `L ≥ 1` (below `2 ^ 63`) and every factory, `NewPool(L, ctx, factory)`
with a live context returns a pool and calls the factory `L` times, and `L` successive
`Pop`s on that pool all return (fuel one each, whatever the scheduler); what they return
is the list of the `L` elements of `NewPool` rotated by one, so a permutation of those
elements, without repetition when the factory's elements are pairwise distinct;
afterwards every slot is empty and the factory has not been called again. -/
theorem Pop_all_of_fresh_pool (sched : Nat → Nat) (fuel L : Nat) (f : Nat → α)
    (hL : 1 ≤ L) (hL63 : L < 2 ^ 63) :
    ∃ p0 q rs, NewPool L false f = .done p0 ∧
      popN sched (fuel + 1) L p0 = .done (q, rs) ∧
      p0.made = L ∧
      rs = ((List.range L).map (fun i => some (f i))).rotate 1 ∧
      rs.Perm ((List.range L).map (fun i => some (f i))) ∧
      ((∀ i j, i < L → j < L → f i = f j → i = j) → rs.Nodup) ∧
      q.list = List.replicate L none ∧ q.made = L := by
  obtain ⟨hlist, hmade⟩ := freshPool_list L false f hL63
  have hlen := freshPool_length L false f
  have hu : L + L < u64 := by
    have := int_below_u64
    omega
  obtain ⟨q, h0, _, h2, _, _, _, h6, _, _⟩ :=
    popN_round sched fuel (freshPool L false f) hlen (freshPool_running L f) hL
      (by show 0 + L < u64; omega) (Nat.zero_mod L)
      (fun i hi => by rw [hlist]; exact fresh_full L f i hi)
  rw [hlist] at h0
  refine ⟨freshPool L false f, q, _, NewPool_done L false f hL63, h0, hmade, rfl,
    List.rotate_perm _ 1, ?_, h2, by rw [h6]; exact hmade⟩
  intro hinj
  exact (List.rotate_perm _ 1).nodup_iff.mpr (fresh_nodup L f hinj)

theorem Pop_all_of_fresh_pool_witness :
    ∃ p0 q rs, NewPool 4 false (fun k : Nat => k) = .done p0 ∧
      popN (fun _ => 0) (0 + 1) 4 p0 = .done (q, rs) ∧
      p0.made = 4 ∧
      rs = ((List.range 4).map (fun i => some i)).rotate 1 ∧
      rs.Perm ((List.range 4).map (fun i => some i)) ∧
      ((∀ i j : Nat, i < 4 → j < 4 → i = j → i = j) → rs.Nodup) ∧
      q.list = List.replicate 4 none ∧ q.made = 4 :=
  Pop_all_of_fresh_pool (fun _ => 0) 0 4 (fun k => k) (by decide) (by decide)

/-! ## Returning every element -/

theorem pushAll_fills [Element α] (sched : Nat → Nat) (fuel : Nat) :
    ∀ (es pre : List α) (p : Pool α),
      p.list = pre.map some ++ List.replicate es.length none →
      p.list.length = p.length → p.length < u64 → p.Running → es.length ≤ p.wg →
      (∀ e ∈ es, Element.Check e = true) → p.length ≤ fuel →
      pushAll sched fuel es p =
        .done { p with list := (pre ++ es).map some, wg := p.wg - es.length } := by
  intro es
  induction es with
  | nil =>
    intro pre p hl _ _ _ _ _ _
    simp only [List.length_nil, List.replicate_zero, List.append_nil] at hl
    simp only [pushAll, List.append_nil, List.length_nil, Nat.sub_zero, ← hl]
  | cons e rest ih =>
    intro pre p hl hlen hbound hrun hwg hhealthy hfuel
    have hk : pre.length < p.list.length := by
      rw [hl]; simp
    have hget : p.list[pre.length]? = some none := by
      rw [hl, List.getElem?_append_right (by simp)]
      simp [List.replicate_succ]
    have hmin : ∀ j, j < pre.length → p.list[j]? ≠ some none := by
      intro j hj
      rw [hl, List.getElem?_append_left (by simpa using hj)]
      simp [List.getElem?_map, List.getElem?_eq_getElem hj]
    have hloop := pushLoop_stores sched e p pre.length hlen hbound hrun (by
      simp only [List.length_cons] at hwg; omega) (by omega) hget hmin fuel 0 0
      (Nat.zero_le _) (by omega)
    have hpush : Push sched fuel p e = .done { p with
        list := p.list.set pre.length (some e), wg := p.wg - 1 } := by
      rw [← hloop]
      simp [Push, hhealthy e (by simp)]
    have hset : p.list.set pre.length (some e) =
        (pre ++ [e]).map some ++ List.replicate rest.length none := by
      rw [hl, List.set_append_right _ _ (by simp)]
      simp [List.replicate_succ]
    have hrec := ih (pre ++ [e])
      { p with list := p.list.set pre.length (some e), wg := p.wg - 1 }
      hset (by simp [hlen]) hbound hrun
      (by simp only [List.length_cons] at hwg; show rest.length ≤ p.wg - 1; omega)
      (fun x hx => hhealthy x (by simp [hx])) hfuel
    simp only [pushAll, hpush, hrec]
    have hw : p.wg - 1 - rest.length = p.wg - (rest.length + 1) := by omega
    simp [hw]

/-- C12: for every `L ≥ 1` (below `2 ^ 63`) and every factory whose first `L` elements
pass `Check()`, take the pool that `NewPool(L, ..)` returns for a live context and check
out all its elements
by `L` `Pop`s.  Then, for every order `es` of those `L` elements, pushing them back in
that order and popping `L` more times returns (fuel `L` per call suffices): the second
round of `Pop`s returns the list `es` rotated by one, a permutation of what the first
round returned and of the elements of `NewPool`, without repetition when these are
pairwise distinct; over the whole run the factory is called only by `NewPool` and
`Clean()` is never called. -/
theorem pop_push_pop_round_trip [Element α] (sched : Nat → Nat) (fuel L : Nat)
    (f : Nat → α) (es : List α) (hL : 1 ≤ L) (hL63 : L < 2 ^ 63) (hfuel : L ≤ fuel)
    (hhealthy : ∀ i, i < L → Element.Check (f i) = true)
    (hes : es.Perm ((List.range L).map f)) :
    ∃ p0 p1 rs1 p2 p3 rs2,
      NewPool L false f = .done p0 ∧
      popN sched fuel L p0 = .done (p1, rs1) ∧
      pushAll sched fuel es p1 = .done p2 ∧
      popN sched fuel L p2 = .done (p3, rs2) ∧
      rs2 = (es.map some).rotate 1 ∧ rs2.Perm rs1 ∧
      rs2.Perm ((List.range L).map (fun i => some (f i))) ∧
      ((∀ i j, i < L → j < L → f i = f j → i = j) → rs2.Nodup) ∧
      p3.list = List.replicate L none ∧ p3.made = p0.made ∧
      p3.cleaned = [] := by
  obtain ⟨k, rfl⟩ : ∃ k, fuel = k + 1 := ⟨fuel - 1, by omega⟩
  obtain ⟨hlist, hmade⟩ := freshPool_list L false f hL63
  have hlen := freshPool_length L false f
  have hu : L + L < u64 := by
    have := int_below_u64
    omega
  -- the first round of `Pop`s
  obtain ⟨p1, h0, h1, h2, h3, h4, h5, h6, h7, _⟩ :=
    popN_round sched k (freshPool L false f) hlen (freshPool_running L f) hL
      (by show 0 + L < u64; omega) (Nat.zero_mod L)
      (fun i hi => by rw [hlist]; exact fresh_full L f i hi)
  have h1L : p1.length = L := h1
  have h2L : p1.list = List.replicate L none := h2
  have h4L : p1.count = L := by rw [h4]; show 0 + L = L; omega
  have h5L : p1.wg = L := by rw [h5]; show 0 + L = L; omega
  have hesLen : es.length = L := by rw [hes.length_eq]; simp
  -- the `Push`es
  have hpush := pushAll_fills sched (k + 1) es [] p1
    (by rw [h2L, hesLen]; simp) (by rw [h2L, h1L]; simp) (by rw [h1L]; omega) h3
    (by rw [h5L, hesLen])
    (fun e he => by
      obtain ⟨i, hi, rfl⟩ := List.mem_map.mp (hes.mem_iff.mp he)
      exact hhealthy i (List.mem_range.mp hi))
    (by rw [h1L]; exact hfuel)
  rw [List.nil_append] at hpush
  -- the second round of `Pop`s
  obtain ⟨p3, g0, _, g2, _, _, _, g6, g7, _⟩ :=
    popN_round sched k { p1 with list := es.map some, wg := p1.wg - es.length }
      (by show (es.map some).length = p1.length; rw [h1L]; simp [hesLen]) h3
      (by show 0 < p1.length; omega)
      (by show p1.count + p1.length < u64; omega)
      (by show p1.count % p1.length = 0; rw [h4L, h1L, Nat.mod_self])
      (fun i hi => by
        have hi2 : i < es.length := by
          have : i < p1.length := hi
          omega
        exact ⟨es[i], by
          show (es.map some)[i]? = _
          simp [List.getElem?_map, List.getElem?_eq_getElem hi2]⟩)
  have hperm2 : (List.rotate (es.map some) 1).Perm
      ((List.range L).map (fun i => some (f i))) := by
    refine (List.rotate_perm _ 1).trans ?_
    have := hes.map (some : α → Option α)
    simpa [List.map_map] using this
  have hperm1 : (List.rotate ((freshPool L false f).list) 1).Perm
      ((List.range L).map (fun i => some (f i))) := by
    rw [hlist]; exact List.rotate_perm _ 1
  have g0L : popN sched (k + 1) L
      { p1 with list := es.map some, wg := p1.wg - es.length } =
      .done (p3, List.rotate (es.map some) 1) := by
    rw [← h1L]
    exact g0
  refine ⟨freshPool L false f, p1, _, _, p3, _, NewPool_done L false f hL63, h0, hpush, g0L,
    rfl, hperm2.trans hperm1.symm, hperm2, ?_, ?_, ?_, ?_⟩
  · intro hinj
    exact hperm2.nodup_iff.mpr (fresh_nodup L f hinj)
  · rw [g2]; show List.replicate p1.length none = _; rw [h1L]
  · rw [g6]; exact h6
  · rw [g7]; show p1.cleaned = []; rw [h7]; rfl

theorem pop_push_pop_round_trip_witness :
    ∃ p0 p1 rs1 p2 p3 rs2,
      NewPool 4 false (fun k : Nat => 2 * k) = .done p0 ∧
      popN (fun _ => 0) 4 4 p0 = .done (p1, rs1) ∧
      pushAll (fun _ => 0) 4 [4, 0, 6, 2] p1 = .done p2 ∧
      popN (fun _ => 0) 4 4 p2 = .done (p3, rs2) ∧
      rs2 = (([4, 0, 6, 2] : List Nat).map some).rotate 1 ∧ rs2.Perm rs1 ∧
      rs2.Perm ((List.range 4).map (fun i => some (2 * i))) ∧
      ((∀ i j : Nat, i < 4 → j < 4 → 2 * i = 2 * j → i = j) → rs2.Nodup) ∧
      p3.list = List.replicate 4 none ∧
      p3.made = p0.made ∧
      p3.cleaned = [] :=
  pop_push_pop_round_trip (fun _ => 0) 4 4 (fun k => 2 * k) [4, 0, 6, 2] (by decide)
    (by decide) (by decide) (by decide) (by decide)

/-! ## Reachable pools -/

/-- C20: in every pool reached from a pool that `NewPool` returned by a sequence of
returned calls (`Pop`, `Push`, `ExtendN`, `Extend2`, `SubtractN`, `SubtractToHalf`,
`Close`, in any order, with any arguments) the slot array has exactly as many slots as
the capacity field says; this holds for the pool of `NewPool` itself; so whenever the
capacity is positive, every cursor value reduced modulo the capacity, as `Pop` and `Push`
compute their index, is within the bounds of the slot array. -/
theorem slots_match_capacity [Element α] (L : Nat) (ctxDone : Bool) (f : Nat → α)
    (calls : List (Call α)) (p0 p : Pool α) (h0 : NewPool L ctxDone f = .done p0)
    (h : runCalls p0 calls = .done p) :
    p0.list.length = p0.length ∧
    p.list.length = p.length ∧
    (0 < p.length → ∀ cursor : Nat, cursor % p.length < p.list.length) := by
  have hinv0 := NewPool_inv L ctxDone f p0 h0
  have hinv := runCalls_inv calls _ p hinv0 h
  refine ⟨hinv0.1, hinv.1, ?_⟩
  intro hpos cursor
  rw [hinv.1]
  exact Nat.mod_lt _ hpos

theorem slots_match_capacity_witness :
    ∃ p, runCalls pool2 [.extendN 3, .pop (fun _ => 0) 1, .push (fun _ => 0) 5 8,
        .subtractToHalf, .extend2, .subtractN 1] = .done p ∧
      pool2.list.length = pool2.length ∧ p.list.length = p.length ∧
      (0 < p.length → ∀ cursor : Nat, cursor % p.length < p.list.length) :=
  ⟨_, rfl, slots_match_capacity 2 false (fun k => k) [.extendN 3, .pop (fun _ => 0) 1,
    .push (fun _ => 0) 5 8, .subtractToHalf, .extend2, .subtractN 1] pool2 _ rfl rfl⟩

/-! ## `Close()` among the calls of other goroutines -/

theorem ExtendN_frame (p q : Pool α) (n : Nat) (h : ExtendN p n = .done q) :
    q.cancelled = p.cancelled ∧ q.wg = p.wg ∧ q.Done = p.Done := by
  rw [ExtendN] at h
  split_ifs at h
  simp only [Outcome.done.injEq] at h
  subst h
  exact ⟨rfl, rfl, rfl⟩

theorem Extend2_frame (p q : Pool α) (h : Extend2 p = .done q) :
    q.cancelled = p.cancelled ∧ q.wg = p.wg ∧ q.Done = p.Done := by
  rw [Extend2] at h
  split_ifs at h
  simp only [Outcome.done.injEq] at h
  subst h
  exact ⟨rfl, rfl, rfl⟩

theorem SubtractN_frame (p q : Pool α) (n : Nat) (err : Option PoolError)
    (h : SubtractN p n = .done (q, err)) :
    q.cancelled = p.cancelled ∧ q.wg = p.wg ∧ q.Done = p.Done := by
  rw [SubtractN] at h
  split_ifs at h
  · simp only [Outcome.done.injEq, Prod.mk.injEq] at h
    rw [← h.1]; exact ⟨rfl, rfl, rfl⟩
  · simp only [Outcome.done.injEq, Prod.mk.injEq] at h
    rw [← h.1]; exact ⟨rfl, rfl, rfl⟩

theorem SubtractToHalf_frame (p q : Pool α) (h : SubtractToHalf p = .done q) :
    q.cancelled = p.cancelled ∧ q.wg = p.wg ∧ q.Done = p.Done := by
  rw [SubtractToHalf] at h
  split_ifs at h
  simp only [Outcome.done.injEq] at h
  subst h
  exact ⟨rfl, rfl, rfl⟩

theorem Close_returned (p q : Pool α) (h : Close p = .done q) :
    p.wg = 0 ∧ q.wg = 0 ∧ q.cancelled = true ∧ q.Done.closed = true := by
  rw [Close_eq] at h
  split_ifs at h with hw hd
  simp only [Outcome.done.injEq] at h
  subst h
  have hw0 : p.wg = 0 := by simpa using hw
  exact ⟨hw0, hw0, rfl, rfl⟩

/-- What a returned call keeps: a cancelled pool stays cancelled, a cancelled pool without
outstanding operation stays without, and `Done` is closed afterwards only if it was
before or the pool is now cancelled and without outstanding operation. -/
theorem call_keeps [Element α] (c : Call α) (p q : Pool α) (h : c.exec p = .done q) :
    (p.cancelled = true → q.cancelled = true) ∧
    (p.cancelled = true → p.wg = 0 → q.wg = 0) ∧
    (q.Done.closed = true → p.Done.closed = true ∨ (q.cancelled = true ∧ q.wg = 0)) := by
  cases c with
  | pop sched fuel =>
    simp only [Call.exec] at h
    split at h
    · rename_i q2 r hpop
      simp only [Outcome.done.injEq] at h
      subst h
      obtain ⟨_, _, h3, h4, h5, h6⟩ := Pop_frame sched fuel p _ r hpop
      refine ⟨fun hc => by rw [h3]; exact hc, ?_, fun hd => Or.inl (by rw [← h4]; exact hd)⟩
      intro hc hw
      cases r with
      | none => rw [(h5 rfl).1]; exact hw
      | some e =>
        have := (h6 (by simp)).2
        rw [hc] at this
        exact absurd this (by simp)
    · simp at h
    · simp at h
  | push sched fuel e =>
    obtain ⟨_, _, h3, h4, h5⟩ := Push_frame sched fuel p q e h
    exact ⟨fun hc => by rw [h3]; exact hc, fun _ hw => by omega,
      fun hd => Or.inl (by rw [← h4]; exact hd)⟩
  | extendN n =>
    obtain ⟨h1, h2, h3⟩ := ExtendN_frame p q n h
    exact ⟨fun hc => by rw [h1]; exact hc, fun _ hw => by rw [h2]; exact hw,
      fun hd => Or.inl (by rw [← h3]; exact hd)⟩
  | extend2 =>
    obtain ⟨h1, h2, h3⟩ := Extend2_frame p q h
    exact ⟨fun hc => by rw [h1]; exact hc, fun _ hw => by rw [h2]; exact hw,
      fun hd => Or.inl (by rw [← h3]; exact hd)⟩
  | subtractN n =>
    simp only [Call.exec] at h
    split at h
    · rename_i q2 err hsub
      simp only [Outcome.done.injEq] at h
      subst h
      obtain ⟨h1, h2, h3⟩ := SubtractN_frame p _ n err hsub
      exact ⟨fun hc => by rw [h1]; exact hc, fun _ hw => by rw [h2]; exact hw,
        fun hd => Or.inl (by rw [← h3]; exact hd)⟩
    · simp at h
    · simp at h
  | subtractToHalf =>
    obtain ⟨h1, h2, h3⟩ := SubtractToHalf_frame p q h
    exact ⟨fun hc => by rw [h1]; exact hc, fun _ hw => by rw [h2]; exact hw,
      fun hd => Or.inl (by rw [← h3]; exact hd)⟩
  | close =>
    obtain ⟨_, h2, h3, _⟩ := Close_returned p q h
    exact ⟨fun _ => h3, fun _ _ => h2, fun _ => Or.inr ⟨h3, h2⟩⟩

theorem closerOK_mono (p q : Pool α) (rest : List CloseStmt)
    (hc : p.cancelled = true → q.cancelled = true)
    (hw : p.cancelled = true → p.wg = 0 → q.wg = 0) (h : closerOK p rest) :
    closerOK q rest := by
  rcases h with h | ⟨h, h1⟩ | ⟨h, h1, h2⟩ | h
  · exact Or.inl h
  · exact Or.inr (Or.inl ⟨h, hc h1⟩)
  · exact Or.inr (Or.inr (Or.inl ⟨h, hc h1, hw h1 h2⟩))
  · exact Or.inr (Or.inr (Or.inr h))

theorem closer_mem (closers : List (List CloseStmt)) (i : Nat) (stmt : CloseStmt)
    (rest : List CloseStmt) (h : closers.getD i [] = stmt :: rest) :
    stmt :: rest ∈ closers := by
  rw [List.getD_eq_getElem?_getD] at h
  cases hget : closers[i]? with
  | none => rw [hget] at h; simp at h
  | some x =>
    rw [hget] at h
    simp only [Option.getD_some] at h
    rw [← h]
    exact List.getElem?_mem hget

theorem step_inv [Element α] (s t : Sys α) (e : Event α) (hinv : s.Inv)
    (h : s.step e = .done t) : t.Inv := by
  obtain ⟨hdone, hclosers⟩ := hinv
  cases e with
  | call c =>
    simp only [Sys.step] at h
    split at h
    · rename_i q hexec
      simp only [Outcome.done.injEq] at h
      subst h
      obtain ⟨k1, k2, k3⟩ := call_keeps c s.pool q hexec
      refine ⟨?_, fun rest hr => closerOK_mono s.pool q rest k1 k2 (hclosers rest hr)⟩
      intro hd
      rcases k3 hd with hold | hnew
      · obtain ⟨hc, hw⟩ := hdone hold
        exact ⟨k1 hc, k2 hc hw⟩
      · exact hnew
    · simp at h
    · simp at h
  | closeBegin =>
    simp only [Sys.step, Outcome.done.injEq] at h
    subst h
    refine ⟨hdone, ?_⟩
    intro rest hr
    rcases List.mem_append.mp hr with hr | hr
    · exact hclosers rest hr
    · rw [List.mem_singleton] at hr
      exact Or.inl hr
  | closeStep i =>
    simp only [Sys.step] at h
    split at h
    · simp only [Outcome.done.injEq] at h
      subst h
      exact ⟨hdone, hclosers⟩
    · rename_i stmt rest hget
      have hmem := closer_mem s.closers i stmt rest hget
      have hok := hclosers _ hmem
      split at h
      · rename_i q hrun
        simp only [Outcome.done.injEq] at h
        subst h
        have hset : ∀ r ∈ s.closers.set i rest, r ∈ s.closers ∨ r = rest :=
          fun r hr => List.mem_or_eq_of_mem_set hr
        rcases hok with hb | ⟨hb, hc⟩ | ⟨hb, hc, hw⟩ | hb
        · -- the closer executes `p.cancel()`
          simp only [closeBody, List.cons.injEq] at hb
          obtain ⟨hs, hrest⟩ := hb
          subst hs
          simp only [CloseStmt.run, Outcome.done.injEq] at hrun
          subst hrun
          refine ⟨fun hd => ⟨rfl, (hdone hd).2⟩, ?_⟩
          intro r hr
          rcases hset r hr with hr | hr
          · exact closerOK_mono s.pool _ r (fun _ => rfl) (fun _ hw => hw) (hclosers r hr)
          · exact Or.inr (Or.inl ⟨by rw [hr, hrest]; rfl, rfl⟩)
        · -- the closer executes `p.wg.Wait()`
          simp only [closeBody, List.drop_succ_cons, List.drop_zero, List.cons.injEq] at hb
          obtain ⟨hs, hrest⟩ := hb
          subst hs
          simp only [CloseStmt.run] at hrun
          split_ifs at hrun with hw
          simp only [Outcome.done.injEq] at hrun
          subst hrun
          have hw0 : s.pool.wg = 0 := by simpa using hw
          refine ⟨hdone, ?_⟩
          intro r hr
          rcases hset r hr with hr | hr
          · exact hclosers r hr
          · exact Or.inr (Or.inr (Or.inl ⟨by rw [hr, hrest]; rfl, hc, hw0⟩))
        · -- the closer executes `close(p.Done)`
          simp only [closeBody, List.drop_succ_cons, List.drop_zero, List.cons.injEq] at hb
          obtain ⟨hs, hrest⟩ := hb
          subst hs
          simp only [CloseStmt.run] at hrun
          split_ifs at hrun with hd
          simp only [Outcome.done.injEq] at hrun
          subst hrun
          refine ⟨fun _ => ⟨hc, hw⟩, ?_⟩
          intro r hr
          rcases hset r hr with hr | hr
          · exact closerOK_mono s.pool _ r (fun h => h) (fun _ h => h) (hclosers r hr)
          · exact Or.inr (Or.inr (Or.inr (by rw [hr, hrest])))
        · simp at hb
      · simp at h
      · simp only [Outcome.done.injEq] at h
        subst h
        exact ⟨hdone, hclosers⟩

theorem runEvents_inv [Element α] (events : List (Event α)) :
    ∀ (s t : Sys α), s.Inv → runEvents s events = .done t → t.Inv := by
  induction events with
  | nil =>
    intro s t hinv h
    simp only [runEvents, Outcome.done.injEq] at h
    subst h; exact hinv
  | cons e rest ih =>
    intro s t hinv h
    simp only [runEvents] at h
    split at h
    · rename_i s2 hstep
      exact ih s2 t (step_inv s s2 e hinv hstep) h
    · simp at h
    · simp at h

theorem start_inv (L : Nat) (ctxDone : Bool) (f : Nat → α) (p0 : Pool α)
    (h0 : NewPool L ctxDone f = .done p0) :
    Sys.Inv ({ pool := p0, closers := [] } : Sys α) := by
  refine ⟨(NewPool_inv L ctxDone f p0 h0).2, ?_⟩
  intro rest hr
  simp at hr

/-- C15: take any run that starts from a pool returned by `NewPool` and consists of whole
calls of `Pop`, `Push`, `ExtendN`, `Extend2`, `SubtractN`, `SubtractToHalf` and `Close`,
of goroutines entering `Close()`, and of single statements of those `Close()` calls, in
any interleaving.  In every state of such a run: if `Done` is closed then the pool is
cancelled and the outstanding-operation count is zero; a closer whose next statement is
`close(p.Done)` finds the pool cancelled and the count at zero; a closer whose next
statement is `p.wg.Wait()` does not get past it while the count is positive; and a whole
`Close()` returns only from a count of zero, leaving the pool cancelled with `Done`
closed, and stays blocked while the count is positive. -/
theorem Done_only_after_drain [Element α] (L : Nat) (ctxDone : Bool) (f : Nat → α)
    (events : List (Event α)) (p0 : Pool α) (s : Sys α)
    (h0 : NewPool L ctxDone f = .done p0)
    (h : runEvents { pool := p0, closers := [] } events = .done s) :
    (s.pool.Done.closed = true → s.pool.cancelled = true ∧ s.pool.wg = 0) ∧
    (∀ i rest, s.closers.getD i [] = CloseStmt.closeDone :: rest →
      s.pool.cancelled = true ∧ s.pool.wg = 0) ∧
    (∀ i rest, s.closers.getD i [] = CloseStmt.wait :: rest → 0 < s.pool.wg →
      s.step (.closeStep i) = .done s) ∧
    (∀ q, Close s.pool = .done q →
      s.pool.wg = 0 ∧ q.wg = 0 ∧ q.cancelled = true ∧ q.Done.closed = true) ∧
    (0 < s.pool.wg → Close s.pool = .spinning) := by
  obtain ⟨hdone, hclosers⟩ := runEvents_inv events _ s (start_inv L ctxDone f p0 h0) h
  refine ⟨hdone, ?_, ?_, fun q hq => Close_returned s.pool q hq, ?_⟩
  · intro i rest hget
    have hok := hclosers _ (closer_mem s.closers i _ rest hget)
    rcases hok with hb | ⟨hb, _⟩ | ⟨_, hc, hw⟩ | hb
    · simp [closeBody] at hb
    · simp [closeBody] at hb
    · exact ⟨hc, hw⟩
    · simp at hb
  · intro i rest hget hw
    have hw0 : s.pool.wg ≠ 0 := by omega
    simp only [Sys.step, hget, CloseStmt.run]
    simp [hw0]
  · intro hw
    have hw0 : s.pool.wg ≠ 0 := by omega
    simp [Close_eq, hw0]

theorem Done_only_after_drain_witness :
    ∃ s, runEvents ({ pool := pool2, closers := [] } : Sys Nat)
        [.call (.pop (fun _ => 0) 1), .closeBegin, .closeStep 0, .closeStep 0,
          .call (.push (fun _ => 0) 1 1), .closeStep 0, .closeStep 0] = .done s ∧
      s.pool.Done.closed = true ∧
      (s.pool.Done.closed = true → s.pool.cancelled = true ∧ s.pool.wg = 0) ∧
      (∀ i rest, s.closers.getD i [] = CloseStmt.closeDone :: rest →
        s.pool.cancelled = true ∧ s.pool.wg = 0) ∧
      (∀ i rest, s.closers.getD i [] = CloseStmt.wait :: rest → 0 < s.pool.wg →
        s.step (.closeStep i) = .done s) ∧
      (∀ q, Close s.pool = .done q →
        s.pool.wg = 0 ∧ q.wg = 0 ∧ q.cancelled = true ∧ q.Done.closed = true) ∧
      (0 < s.pool.wg → Close s.pool = .spinning) :=
  ⟨_, rfl, rfl, Done_only_after_drain 2 false (fun k => k)
    [.call (.pop (fun _ => 0) 1), .closeBegin, .closeStep 0, .closeStep 0,
      .call (.push (fun _ => 0) 1 1), .closeStep 0, .closeStep 0] pool2 _ rfl rfl⟩

end Lockfreepool
